import Mathlib

/-!
Verification development for the segment allocator, Bε-tree, database handler
and dataset router of the `betree` storage stack.

The Rust sources are shallowly embedded: `u32` arithmetic is modelled on `Nat`
(all behaviours relevant to the statements below stay far below `2^32`; inputs
on which the Rust arithmetic would overflow make the Rust panic in debug mode
and are not load-bearing for any statement), the per-segment bitmap
`BitArr!(for SEGMENT_SIZE, in u8, Lsb0)` is modelled as a function
`Nat → Bool` read and written only at indices below `SEGMENT_SIZE`, and
fallible operations return `Except`.
-/

namespace Betree

/-- Number of blocks (= bits) covered by one segment bitmap.  Modelled from the
spec: the constant lives in the `allocator` module root which is not among the
sources; the spec fixes `SEGMENT_SIZE = 64 KiB` of blocks. -/
def SEGMENT_SIZE : Nat := 65536

/-- Modelled from the spec: `mark(offset, size, action)` of the allocator
trait (in the missing `allocator/mod.rs`) writes the action's bit value to all
bitmap bits in `[offset, offset + size)`. -/
def mark (d : Nat → Bool) (offset size : Nat) (b : Bool) : Nat → Bool :=
  fun i => if offset ≤ i ∧ i < offset + size then b else d i

/-- Embedding of `self.data[start_idx..end_idx].any()`: scans `size` bits
starting at `offset`. -/
def anyBit (d : Nat → Bool) : Nat → Nat → Bool
  | _, 0 => false
  | offset, s + 1 => d offset || anyBit d (offset + 1) s

/-- State of `WorstFitList` (src/betree/src/allocator/worst_fit_list.rs):
a segment bitmap plus the `(offset, size)` list of free segments. -/
structure WorstFitList where
  data : Nat → Bool
  free_segments : List (Nat × Nat)

namespace WorstFitList

/-- Embedding of the index-search loop of `WorstFitList::allocate`
(worst_fit_list.rs lines 33–42): `i` is the index of the head of the remaining
list, `best` / `bestSize` are `worst_fit_segment_index` / `worst_fit_segment_size`. -/
def worstFitGo (size : Nat) : List (Nat × Nat) → Nat → Option Nat → Nat → Option Nat
  | [], _, best, _ => best
  | (_, s) :: rest, i, best, bestSize =>
    if size ≤ s ∧ bestSize < s then worstFitGo size rest (i + 1) (some i) s
    else worstFitGo size rest (i + 1) best bestSize

/-- The selection loop of `WorstFitList::allocate` started from the initial
state `worst_fit_segment_index = None`, `worst_fit_segment_size = 0`. -/
def worstFitFind (segs : List (Nat × Nat)) (size : Nat) : Option Nat :=
  worstFitGo size segs 0 none 0

/-- Embedding of `WorstFitList::allocate` (worst_fit_list.rs lines 28–54).
Note the source only truncates the chosen run in place
(`free_segments[index].0/1` updates); a run whose length equals `size` is left
in the list as a zero-length entry. -/
def allocate (a : WorstFitList) (size : Nat) : Option Nat × WorstFitList :=
  if size = 0 then (some 0, a)
  else
    match worstFitFind a.free_segments size with
    | some index =>
      match a.free_segments.get? index with
      | some (offset, segment_size) =>
        (some offset,
          { data := mark a.data offset size true,
            free_segments :=
              a.free_segments.set index (offset + size, segment_size - size) })
      | none => (none, a)
    | none => (none, a)

/-- Embedding of the free-segment scan of `WorstFitList::allocate_at`
(worst_fit_list.rs lines 73–103): returns the updated list on success,
`none` when the loop falls through to `false`. -/
def allocAtGo (size offset : Nat) : List (Nat × Nat) → Option (List (Nat × Nat))
  | [] => none
  | (seg_offset, seg_size) :: rest =>
    if seg_offset = offset ∧ seg_size = size then some rest
    else if seg_offset = offset ∧ size < seg_size then
      some ((seg_offset + size, seg_size - size) :: rest)
    else if seg_offset < offset ∧ offset + size = seg_offset + seg_size then
      some ((seg_offset, seg_size - size) :: rest)
    else if seg_offset < offset ∧ offset < seg_offset + seg_size ∧
        offset + size < seg_offset + seg_size then
      some ((seg_offset, offset - seg_offset) ::
        (offset + size, seg_size - (size + (offset - seg_offset))) :: rest)
    else
      (allocAtGo size offset rest).map ((seg_offset, seg_size) :: ·)

/-- Embedding of `WorstFitList::allocate_at` (worst_fit_list.rs lines 58–104).
The argument order `(size, offset)` is the source's. -/
def allocate_at (a : WorstFitList) (size offset : Nat) : Bool × WorstFitList :=
  if size = 0 then (true, a)
  else if SEGMENT_SIZE < offset + size then (false, a)
  else if anyBit a.data offset size then (false, a)
  else
    match allocAtGo size offset a.free_segments with
    | some segs =>
      (true, { data := mark a.data offset size true, free_segments := segs })
    | none => (false, a)

/-- Embedding of the merge/insert loop of `WorstFitList::deallocate`
(worst_fit_list.rs lines 117–139): the first matching case merges and returns;
reaching an entry with larger offset inserts the freed run in front of it;
falling off the end appends it. -/
def deallocGo (offset size : Nat) : List (Nat × Nat) → List (Nat × Nat)
  | [] => [(offset, size)]
  | (seg_offset, seg_size) :: rest =>
    if seg_offset + seg_size = offset then
      match rest with
      | (next_offset, next_size) :: rest2 =>
        if next_offset = offset + size then
          (seg_offset, seg_size + size + next_size) :: rest2
        else (seg_offset, seg_size + size) :: rest
      | [] => [(seg_offset, seg_size + size)]
    else if offset + size = seg_offset then
      (offset, seg_size + size) :: rest
    else if offset < seg_offset then
      (offset, size) :: (seg_offset, seg_size) :: rest
    else
      (seg_offset, seg_size) :: deallocGo offset size rest

/-- Embedding of `WorstFitList::deallocate` (worst_fit_list.rs lines 107–140). -/
def deallocate (a : WorstFitList) (offset size : Nat) : WorstFitList :=
  if SEGMENT_SIZE < offset + size then a
  else
    { data := mark a.data offset size false,
      free_segments := deallocGo offset size a.free_segments }

/-- Embedding of the bitmap scan of `WorstFitList::initialize_free_segments`
(inner `while` loop, worst_fit_list.rs lines 151–154): returns the length of
the zero-run starting at `offset` together with the offset just past it.
`fuel` bounds the iteration count; callers supply at least
`SEGMENT_SIZE - offset`. -/
def scanRun (d : Nat → Bool) : Nat → Nat → Nat × Nat
  | 0, offset => (0, offset)
  | f + 1, offset =>
    if offset < SEGMENT_SIZE ∧ d offset = false then
      let r := scanRun d f (offset + 1)
      (r.1 + 1, r.2)
    else (0, offset)

/-- Embedding of the outer loop of `WorstFitList::initialize_free_segments`
(worst_fit_list.rs lines 145–162).  The trailing `sort_by_key` of the source
is the identity here because the runs are produced in increasing offset
order (a consequence of `scanSegs_spec` below). -/
def scanSegs (d : Nat → Bool) : Nat → Nat → List (Nat × Nat)
  | 0, _ => []
  | f + 1, offset =>
    if offset < SEGMENT_SIZE then
      if d offset = false then
        let r := scanRun d (f + 1) offset
        (offset, r.1) :: scanSegs d f r.2
      else scanSegs d f (offset + 1)
    else []

/-- Embedding of `WorstFitList::new` (worst_fit_list.rs lines 16–24): adopt
the bitmap and build the free-segment list by scanning it. -/
def new (bitmap : Nat → Bool) : WorstFitList :=
  { data := bitmap, free_segments := scanSegs bitmap SEGMENT_SIZE 0 }

end WorstFitList

/-- A block index `b` is covered by some free run of `segs`. -/
def covers (segs : List (Nat × Nat)) (b : Nat) : Prop :=
  ∃ p ∈ segs, p.1 ≤ b ∧ b < p.1 + p.2

instance coversDecidable (segs : List (Nat × Nat)) (b : Nat) :
    Decidable (covers segs b) := by
  unfold covers; infer_instance

/-- Free runs listed in strictly increasing offset order with at least one
allocated block between consecutive runs (sorted, disjoint, non-abutting). -/
def SepSorted (segs : List (Nat × Nat)) : Prop :=
  List.Pairwise (fun p q : Nat × Nat => p.1 + p.2 < q.1) segs

/-- Free-list offsets strictly increasing, the literal reading of "sorted
strictly increasing by offset". -/
def StrictSortedByOffset (segs : List (Nat × Nat)) : Prop :=
  List.Pairwise (fun p q : Nat × Nat => p.1 < q.1) segs

/-- The free-list invariant of the allocator: runs are separated and sorted,
non-empty, within the segment extent, and describe exactly the zero bits of
the bitmap. -/
structure Inv (a : WorstFitList) : Prop where
  sep : SepSorted a.free_segments
  pos : ∀ p ∈ a.free_segments, 0 < p.2
  extent : ∀ p ∈ a.free_segments, p.1 + p.2 ≤ SEGMENT_SIZE
  bits : ∀ b, b < SEGMENT_SIZE → (a.data b = false ↔ covers a.free_segments b)

/-- One step of an allocator history: the three mutating operations of the
`Allocator` trait. -/
inductive AllocOp where
  | alloc (size : Nat)
  | dealloc (offset size : Nat)
  | allocAt (size offset : Nat)

/-- Apply one operation to the allocator state (results of `allocate` and
`allocate_at` are discarded, only the state evolves). -/
def applyOp (a : WorstFitList) : AllocOp → WorstFitList
  | .alloc size => (a.allocate size).2
  | .dealloc offset size => a.deallocate offset size
  | .allocAt size offset => (a.allocate_at size offset).2

/-- Apply a whole sequence of operations, oldest first. -/
def applyOps (a : WorstFitList) : List AllocOp → WorstFitList
  | [] => a
  | op :: ops => applyOps (applyOp a op) ops

/-- Discipline on a single operation in the given state: a `dealloc` must be a
no-op (out of extent) or free a non-empty range of currently set bits, and an
`alloc` must not consume its chosen free run exactly (which would leave a
zero-length entry in the list).  `allocate_at` is unrestricted. -/
def opOk (a : WorstFitList) : AllocOp → Prop
  | .alloc size =>
      size = 0 ∨ ∀ k o L, WorstFitList.worstFitFind a.free_segments size = some k →
        a.free_segments.get? k = some (o, L) → size < L
  | .dealloc offset size =>
      SEGMENT_SIZE < offset + size ∨
        (0 < size ∧ ∀ b, offset ≤ b → b < offset + size → a.data b = true)
  | .allocAt _ _ => True

/-- A whole sequence of operations is disciplined from the given state on. -/
def opsOk (a : WorstFitList) : List AllocOp → Prop
  | [] => True
  | op :: ops => opOk a op ∧ opsOk (applyOp a op) ops

/-! ## Bε-tree engine

`src/betree/src/tree/imp/mod.rs` contains `Tree::get_with_info` and
`TreeBaseLayer::insert`; the node-level operations (`node.rs`, `leaf.rs`,
`internal.rs`, `child_buffer.rs`) and `DefaultMessageAction`
(`default_message_action.rs`) are not among the sources and are modelled from
the spec (sections 3 and 4.2).  Keys and values are byte strings (`List Nat`);
`KeyInfo`/`StoragePreference` bookkeeping carried alongside values is not
modelled, no statement below depends on it. -/

/-- Keys are byte strings. -/
abbrev Key := List Nat

/-- Values and message payloads are byte strings. -/
abbrev Value := List Nat

/-- Modelled from the spec: the message blobs produced by
`DefaultMessageAction` (`insert_msg`, `upsert_msg`, `delete_msg`).  An upsert
message carries the sequence of `(offset, data)` writes accumulated by
merging, oldest first. -/
inductive DMsg where
  | insertMsg (v : Value)
  | upsertsMsg (writes : List (Nat × Value))
  | deleteMsg
deriving DecidableEq

/-- Modelled from the spec: a single zero-padding upsert — the value is padded
with zero bytes up to `offset`, `d` is written there, bytes beyond the write
are kept. -/
def upsertBytes (offset : Nat) (d v : Value) : Value :=
  (v.take offset ++ List.replicate (offset - v.length) 0) ++ d ++
    v.drop (offset + d.length)

/-- Modelled from the spec: `MessageAction::apply(key, msg, &mut Option<value>)`
for `DefaultMessageAction`.  Laws from the spec hold definitionally: an insert
message yields `Some`, a delete message yields `None`, upserts zero-pad. -/
def DMsg.apply : DMsg → Option Value → Option Value
  | .insertMsg v, _ => some v
  | .deleteMsg, _ => none
  | .upsertsMsg writes, v =>
    some (writes.foldl (fun acc w => upsertBytes w.1 w.2 acc) (v.getD []))

/-- Modelled from the spec: merging a newer message onto the pending message
of a child buffer; the merge realises exact fold composition (the spec's
associativity law), so inserts and deletes overwrite and upserts compose. -/
def DMsg.mergeMsg : DMsg → DMsg → DMsg
  | .insertMsg v, _ => .insertMsg v
  | .deleteMsg, _ => .deleteMsg
  | .upsertsMsg writes, .insertMsg v =>
    .insertMsg (writes.foldl (fun acc w => upsertBytes w.1 w.2 acc) v)
  | .upsertsMsg writes, .deleteMsg =>
    .insertMsg (writes.foldl (fun acc w => upsertBytes w.1 w.2 acc) [])
  | .upsertsMsg writes, .upsertsMsg writes0 => .upsertsMsg (writes0 ++ writes)

/-- Byte-string comparison (lexicographic, shorter-prefix-first), the key
order of the tree. -/
def ltKey : Key → Key → Bool
  | [], [] => false
  | [], _ :: _ => true
  | _ :: _, [] => false
  | a :: as, b :: bs => if a < b then true else if b < a then false else ltKey as bs

/-- Association-list lookup on keys. -/
def lookupA {α : Type} : List (Key × α) → Key → Option α
  | [], _ => none
  | (k', v) :: rest, k => if k' = k then some v else lookupA rest k

/-- Association-list insert-or-replace keeping keys sorted (the ordered maps
of leaves and child buffers). -/
def setA {α : Type} : List (Key × α) → Key → α → List (Key × α)
  | [], k, v => [(k, v)]
  | (k', v') :: rest, k, v =>
    if k = k' then (k, v) :: rest
    else if ltKey k k' then (k, v) :: (k', v') :: rest
    else (k', v') :: setA rest k v

/-- Association-list removal. -/
def removeA {α : Type} : List (Key × α) → Key → List (Key × α)
  | [], _ => []
  | (k', v') :: rest, k => if k = k' then rest else (k', v') :: removeA rest k

/-- Modelled from the spec: a tree node is a leaf (ordered key → value map) or
an internal node with pivots `p_1 < … < p_{n-1}` and `n` children, each child
reference carrying a child buffer of pending messages.  `buffers.get i` is the
buffer of `children.get i`; the serialized `Packed` leaf form is transparent
here. -/
inductive Node where
  | leaf (entries : List (Key × Value))
  | internal (pivots : List Key) (buffers : List (List (Key × DMsg)))
      (children : List Node)

/-- Modelled from the spec: child index for a key — the number of pivots
strictly below it, so that a child's keys `k` satisfy `p_(i-1) < k ≤ p_i`. -/
def childIdx (pivots : List Key) (k : Key) : Nat :=
  pivots.countP (fun p => ltKey p k)

/-- Modelled from the spec: applying a message directly to a leaf via the
message action (the stopping node of the insert descent is a leaf, or a
buffer is flushed into a leaf): the entry becomes the folded value, removed
when the fold yields `None`. -/
def leafInsert (entries : List (Key × Value)) (k : Key) (m : DMsg) :
    List (Key × Value) :=
  match m.apply (lookupA entries k) with
  | some v => setA entries k v
  | none => removeA entries k

/-- Modelled from the spec: depositing a message into a child buffer; a
pending message for the same key is merged (newer onto older). -/
def bufInsert (buf : List (Key × DMsg)) (k : Key) (m : DMsg) :
    List (Key × DMsg) :=
  match lookupA buf k with
  | some old => setA buf k (DMsg.mergeMsg m old)
  | none => setA buf k m

/-- Replace the buffer at child index `i` by its updated form. -/
def depositBuf (buffers : List (List (Key × DMsg))) (i : Nat) (k : Key)
    (m : DMsg) : List (List (Key × DMsg)) :=
  buffers.set i (bufInsert (buffers.getD i []) k m)

mutual

/-- Embedding of the descent of `Tree::get_with_info`
(src/betree/src/tree/imp/mod.rs lines 344–357): walk from the root to the leaf
responsible for `k`, collecting the pending message for `k` of every child
buffer along the path (root first), and return them together with the leaf's
base entry.  The per-node `node.get` is modelled from the spec. -/
def Node.collectGet (k : Key) : Node → List DMsg × Option Value
  | .leaf entries => ([], lookupA entries k)
  | .internal pivots buffers children =>
    let i := childIdx pivots k
    let r := Node.collectChild k i children
    ((lookupA (buffers.getD i []) k).toList ++ r.1, r.2)

/-- Descend into child `i` (missing children — impossible in a well-formed
tree, where the Rust holds one pointer per child — yield no base entry). -/
def Node.collectChild (k : Key) : Nat → List Node → List DMsg × Option Value
  | _, [] => ([], none)
  | 0, c :: _ => Node.collectGet k c
  | i + 1, _ :: cs => Node.collectChild k i cs

end

mutual

/-- Embedding of the descent loop of `TreeBaseLayer::insert`
(src/betree/src/tree/imp/mod.rs lines 420–441): walk down while the next child
is cached (`try_get_mut` succeeded — the environment-chosen `cached` oracle),
then deposit the message at the stopping node: applied via the message action
at a leaf, merged into the child buffer for `k` at an internal node
(`node.insert`, modelled from the spec). -/
def Node.insertMsgAt : Node → Key → DMsg → List Bool → Node
  | .leaf entries, k, m, _ => .leaf (leafInsert entries k m)
  | .internal pivots buffers children, k, m, [] =>
    .internal pivots (depositBuf buffers (childIdx pivots k) k m) children
  | .internal pivots buffers children, k, m, false :: _ =>
    .internal pivots (depositBuf buffers (childIdx pivots k) k m) children
  | .internal pivots buffers children, k, m, true :: rest =>
    .internal pivots buffers (Node.insertChild (childIdx pivots k) children k m rest)

/-- Recurse into child `i` (missing children are impossible in a well-formed
tree and are left unchanged). -/
def Node.insertChild : Nat → List Node → Key → DMsg → List Bool → List Node
  | _, [], _, _, _ => []
  | 0, c :: cs, k, m, rest => Node.insertMsgAt c k m rest :: cs
  | i + 1, c :: cs, k, m, rest => c :: Node.insertChild i cs k m rest

end

/-- Error and panic outcomes surfaced by the operations modelled here
(subset of the error taxonomy plus the two panics reachable in the modelled
code paths). -/
inductive Err where
  | DoesNotExist
  | AlreadyExists
  | InUse
  | EmptyKey
  | MessageTooLarge
  | PanicRootMerge
  | PanicUnwrapNone
deriving DecidableEq

/-- Modelled from the spec (section 9): `node.root_needs_merge()` — the root
collapse case, reached when the root is an internal node with at most one
child; `TreeBaseLayer::insert` hits `unimplemented!()` on it. -/
def Node.rootNeedsMerge : Node → Bool
  | .leaf _ => false
  | .internal _ _ children => decide (children.length ≤ 1)

/-- The insert descent deposits at the root itself exactly when the root is a
leaf or the first child probe was not cached. -/
def stopsAtRoot (root : Node) (cached : List Bool) : Bool :=
  match root, cached with
  | .leaf _, _ => true
  | .internal _ _ _, true :: _ => false
  | .internal _ _ _, _ => true

/-- Embedding of `TreeBaseLayer::insert` (src/betree/src/tree/imp/mod.rs lines
409–456): reject the empty key first (`ensure!(!key.is_empty())`), deposit the
message at the deepest cached node, and panic on the unimplemented root-merge
case.  The post-insert rebalancing call (`self.fixup_foo`, not defined in the
sources; `rebalance_tree` of flush.rs only moves messages toward leaves and
splits/merges nodes) is modelled as the identity on logical content. -/
def Tree.insert (root : Node) (k : Key) (m : DMsg) (cached : List Bool) :
    Except Err Node :=
  if k = [] then .error .EmptyKey
  else if stopsAtRoot root cached = true ∧
      (Node.insertMsgAt root k m cached).rootNeedsMerge = true then
    .error .PanicRootMerge
  else .ok (Node.insertMsgAt root k m cached)

/-- Embedding of `Tree::get_with_info` / `TreeBaseLayer::get`
(src/betree/src/tree/imp/mod.rs lines 344–377, 399–407): collect the path
messages and the leaf base entry; when the base entry is absent return `None`
at once (line 360 — the collected messages are dropped); otherwise fold the
messages in reverse collection order (top of tree last) and `unwrap` the
result (line 368 — a fold ending in `None` panics). -/
def Tree.get (root : Node) (k : Key) : Except Err (Option Value) :=
  let r := Node.collectGet k root
  match r.2 with
  | none => .ok none
  | some v =>
    match r.1.reverse.foldl (fun acc m => DMsg.apply m acc) (some v) with
    | some w => .ok (some w)
    | none => .error .PanicUnwrapNone

/-! ## Dataset layer (src/betree/src/database/dataset.rs) -/

/-- Maximum size of a dataset message (src/betree/src/tree/imp/mod.rs line
64). -/
def MAX_MESSAGE_SIZE : Nat := 512 * 1024

/-- Storage preference levels (modelled from the spec; the dataset threads
them through to the tree, no statement below depends on them). -/
inductive StoragePreference where
  | NONE
  | FASTEST
  | FAST
  | SLOW
  | SLOWEST
deriving DecidableEq

/-- Modelled from the spec: `NONE` defers to the other preference. -/
def StoragePreference.or : StoragePreference → StoragePreference → StoragePreference
  | .NONE, d => d
  | p, _ => p

/-- Modelled from the spec: `DefaultMessageAction::insert_msg`. -/
def DefaultMessageAction.insert_msg (data : Value) : DMsg := .insertMsg data

/-- Modelled from the spec: `DefaultMessageAction::upsert_msg`. -/
def DefaultMessageAction.upsert_msg (offset : Nat) (data : Value) : DMsg :=
  .upsertsMsg [(offset, data)]

/-- Modelled from the spec: `DefaultMessageAction::delete_msg`. -/
def DefaultMessageAction.delete_msg : DMsg := .deleteMsg

/-- The state of `DatasetInner` relevant here: its tree and its ambient
storage preference. -/
structure DatasetInner where
  tree : Node
  storage_preference : StoragePreference

/-- Embedding of `DatasetInner::insert_msg_with_pref` (dataset.rs lines
251–260): relays the raw message to the tree with the combined preference —
no size check. -/
def DatasetInner.insert_msg_with_pref (ds : DatasetInner) (k : Key) (msg : DMsg)
    (pref : StoragePreference) (cached : List Bool) : Except Err Node :=
  Tree.insert ds.tree k msg cached

/-- Embedding of `DatasetInner::insert_with_pref` (dataset.rs lines 374–389):
`ensure!(data.len() <= MAX_MESSAGE_SIZE)` then relay an insert message. -/
def DatasetInner.insert_with_pref (ds : DatasetInner) (k : Key) (data : Value)
    (pref : StoragePreference) (cached : List Bool) : Except Err Node :=
  if MAX_MESSAGE_SIZE < data.length then .error .MessageTooLarge
  else ds.insert_msg_with_pref k (DefaultMessageAction.insert_msg data) pref cached

/-- Embedding of `DatasetInner::upsert_with_pref` (dataset.rs lines 401–420):
`ensure!(offset + data.len() <= MAX_MESSAGE_SIZE)` then relay an upsert
message. -/
def DatasetInner.upsert_with_pref (ds : DatasetInner) (k : Key) (data : Value)
    (offset : Nat) (pref : StoragePreference) (cached : List Bool) :
    Except Err Node :=
  if MAX_MESSAGE_SIZE < offset + data.length then .error .MessageTooLarge
  else ds.insert_msg_with_pref k (DefaultMessageAction.upsert_msg offset data)
    pref cached

/-- Embedding of `DatasetInner::delete` (dataset.rs lines 454–460): relay a
delete message, no size check. -/
def DatasetInner.delete (ds : DatasetInner) (k : Key) (cached : List Bool) :
    Except Err Node :=
  ds.insert_msg_with_pref k DefaultMessageAction.delete_msg .NONE cached

/-! ## Dataset router state (src/betree/src/database/dataset.rs, open/close) -/

/-- Persistent dataset metadata (`DatasetData`): the root pointer (abstracted
to a number) and the newest snapshot generation. -/
structure DatasetData where
  ptr : Nat
  previous_snapshot : Option Nat

/-- The `Database` state relevant to open/close: the root tree's name → id
bindings (`[1, name…]` keys) and per-id `DatasetData` (both modelled from the
spec, `lookup_dataset_id` / `fetch_ds_data` read the root tree), the
in-memory `open_datasets` id set and the handler's
`last_snapshot_generation`. -/
structure Database where
  names : List Nat → Option Nat
  ds_data : Nat → Option DatasetData
  open_datasets : Nat → Bool
  last_snapshot_generation : Nat → Option Nat

/-- Embedding of `Database::open_dataset_with_id_and_name` (dataset.rs lines
93–129): fetch the dataset data (`DoesNotExist` when absent), fail with
`InUse` when the id is already open, otherwise record the snapshot generation
(when one exists) and the open id. -/
def Database.open_dataset_with_id_and_name (db : Database) (id : Nat) :
    Except Err Database :=
  match db.ds_data id with
  | none => .error .DoesNotExist
  | some d =>
    if db.open_datasets id then .error .InUse
    else
      .ok { db with
        open_datasets := fun j => if j = id then true else db.open_datasets j,
        last_snapshot_generation := fun j =>
          if j = id then
            match d.previous_snapshot with
            | some ss => some ss
            | none => db.last_snapshot_generation j
          else db.last_snapshot_generation j }

/-- Embedding of `Database::open_custom_dataset` (dataset.rs lines 74–81):
resolve the name (`DoesNotExist` when unbound) and open by id. -/
def Database.open_dataset (db : Database) (name : List Nat) :
    Except Err Database :=
  match db.names name with
  | none => .error .DoesNotExist
  | some id => db.open_dataset_with_id_and_name id

/-- Embedding of `Database::close_dataset` (dataset.rs lines 218–236): sync
the dataset tree (`sync_ds`, not among the sources; modelled from the spec as
leaving this metadata untouched), then drop the id from `open_datasets` and
from `last_snapshot_generation`. -/
def Database.close_dataset (db : Database) (id : Nat) : Database :=
  { db with
    open_datasets := fun j => if j = id then false else db.open_datasets j,
    last_snapshot_generation := fun j =>
      if j = id then none else db.last_snapshot_generation j }

/-! ## Handler (src/betree/src/database/handler.rs) -/

/-- Disk address decomposed as the spec prescribes (`storage_class`,
disk-within-class, block index); `class_disk_id()` and `storage_class()` are
projections. -/
structure DiskOffset where
  storage_class : Nat
  disk_id : Nat
  block_offset : Nat
deriving DecidableEq

/-- Modelled from the spec: `DiskOffset::class_disk_id() → GlobalDiskId`. -/
def DiskOffset.class_disk_id (o : DiskOffset) : Nat × Nat :=
  (o.storage_class, o.disk_id)

/-- Modelled from the spec: `SegmentId::get` — the offset quantized to
segment boundaries. -/
def SegmentId.get (o : DiskOffset) : Nat :=
  o.block_offset / SEGMENT_SIZE

/-- Modelled from the spec: `SegmentId::get_block_offset` — the offset within
its segment. -/
def SegmentId.get_block_offset (o : DiskOffset) : Nat :=
  o.block_offset % SEGMENT_SIZE

/-- Bitmap update direction of the allocator trait. -/
inductive Action where
  | Allocate
  | Deallocate
deriving DecidableEq

/-- Modelled from the spec: allocation sets bits, deallocation clears them. -/
def Action.as_bool : Action → Bool
  | .Allocate => true
  | .Deallocate => false

/-- Free/total block counts of one disk or tier
(src/betree/src/database/storage_info.rs). -/
structure StorageInfo where
  free : Nat
  total : Nat
deriving DecidableEq

/-- Root-tree keys written by the handler (the byte-level packing of
`root_tree_msg::{segment, space_accounting, deadlist}` is not among the
sources; the keys are modelled as their abstract contents). -/
inductive RootKey where
  | segmentKey (id : Nat)
  | spaceAccountingKey (disk : Nat × Nat)
  | deadlistKey (dataset_id : Nat) (generation : Nat) (offset : DiskOffset)
deriving DecidableEq

/-- Root-tree messages enqueued by the handler (abstract contents of the
serialized messages). -/
inductive RootMsg where
  | upsertBits (segment_offset : Nat) (size : Nat) (value : Bool)
  | upsertInfo (info : StorageInfo)
  | insertDeadList (birth : Nat) (size : Nat)
deriving DecidableEq

/-- Embedding of `update_allocation_bitmap_msg` (handler.rs lines 29–36):
an `upsert_bits_msg` at the in-segment offset. -/
def update_allocation_bitmap_msg (offset : DiskOffset) (size : Nat)
    (action : Action) : RootMsg :=
  .upsertBits (SegmentId.get_block_offset offset) size action.as_bool

/-- Embedding of `update_storage_info` (handler.rs lines 38–43): an upsert of
the serialized counters. -/
def update_storage_info (info : StorageInfo) : RootMsg :=
  .upsertInfo info

/-- Result of the handler's copy-on-write decision
(`data_management::CopyOnWriteEvent`). -/
inductive CopyOnWriteEvent where
  | Removed
  | Preserved
deriving DecidableEq

/-- The `Handler` state manipulated by `copy_on_write`: the generation
counter, per-disk and per-tier free-space counters (the `HashMap`/`Vec` of
atomics is modelled as total maps; the `expect` on an unknown disk id cannot
fire then), the delayed-message queue and the snapshot-generation map. -/
structure Handler where
  current_generation : Nat
  free_space : Nat × Nat → StorageInfo
  free_space_tier : Nat → StorageInfo
  delayed_messages : List (RootKey × RootMsg)
  last_snapshot_generation : Nat → Option Nat

/-- Embedding of `Handler::copy_on_write` (handler.rs lines 203–257).  The
branch condition is the source's
`last_snapshot_generation.get(&dataset_id).cloned() < Some(generation)`
(`None` is below every `Some`).  The deallocate branch bumps both free-space
counters by `size`, then enqueues the bitmap message and the storage-info
message (reading the already-bumped counter) as delayed messages; the other
branch enqueues a dead-list entry `{birth: generation, size}` keyed by
`(dataset_id, current_generation, offset)`. -/
def Handler.copy_on_write (h : Handler) (offset : DiskOffset) (size : Nat)
    (generation : Nat) (dataset_id : Nat) : CopyOnWriteEvent × Handler :=
  if (match h.last_snapshot_generation dataset_id with
      | none => true
      | some g => decide (g < generation)) = true then
    let disk := offset.class_disk_id
    let fs := fun d => if d = disk then
        { h.free_space d with free := (h.free_space d).free + size }
      else h.free_space d
    let fst' := fun c => if c = offset.storage_class then
        { h.free_space_tier c with free := (h.free_space_tier c).free + size }
      else h.free_space_tier c
    (.Removed,
      { h with
        free_space := fs,
        free_space_tier := fst',
        delayed_messages := h.delayed_messages ++
          [(.segmentKey (SegmentId.get offset),
              update_allocation_bitmap_msg offset size .Deallocate),
           (.spaceAccountingKey disk, update_storage_info (fs disk))] })
  else
    (.Preserved,
      { h with
        delayed_messages := h.delayed_messages ++
          [(.deadlistKey dataset_id h.current_generation offset,
              RootMsg.insertDeadList generation size)] })

/-! ## Concrete test fixtures used by the closed statements below -/

/-- Fully allocated segment with the (correctly) empty free list. -/
def wflAllOnes : WorstFitList :=
  { data := fun _ => true, free_segments := [] }

/-- Segment whose only free run is `(0, 5)`. -/
def wflRun5 : WorstFitList :=
  { data := fun b => decide (5 ≤ b), free_segments := [(0, 5)] }

/-- Segment whose only free run is `(1000, 500)` (the spec's exact-placement
scenario). -/
def wflScenario2 : WorstFitList :=
  { data := fun b => decide (¬ (1000 ≤ b ∧ b < 1500)),
    free_segments := [(1000, 500)] }

/-- A handler state with no recorded snapshots. -/
def h0 : Handler :=
  { current_generation := 7
    free_space := fun _ => { free := 100, total := 200 }
    free_space_tier := fun _ => { free := 50, total := 80 }
    delayed_messages := []
    last_snapshot_generation := fun _ => none }

/-- A handler state whose dataset 9 has a live snapshot at generation 5. -/
def h1 : Handler :=
  { h0 with last_snapshot_generation := fun ds => if ds = 9 then some 5 else none }

/-- A disk offset on storage class 1, disk 2, block 70000. -/
def off0 : DiskOffset :=
  { storage_class := 1, disk_id := 2, block_offset := 70000 }

/-- A database with one dataset named "foo" (bytes `[102, 111, 111]`), id 1,
currently open. -/
def db0 : Database :=
  { names := fun n => if n = [102, 111, 111] then some 1 else none
    ds_data := fun i => if i = 1 then some { ptr := 42, previous_snapshot := none }
      else none
    open_datasets := fun i => decide (i = 1)
    last_snapshot_generation := fun _ => none }

end Betree

namespace Betree

/-! ## Basic lemmas: bitmap writes, bit scans, coverage -/

theorem mark_mem (d : Nat → Bool) (offset size : Nat) (b : Bool) (i : Nat)
    (h1 : offset ≤ i) (h2 : i < offset + size) : mark d offset size b i = b := by
  simp [mark, h1, h2]

theorem mark_not_mem (d : Nat → Bool) (offset size : Nat) (b : Bool) (i : Nat)
    (h : ¬ (offset ≤ i ∧ i < offset + size)) : mark d offset size b i = d i := by
  simp only [mark, if_neg h]

theorem anyBit_eq_false_iff (d : Nat → Bool) :
    ∀ size offset, anyBit d offset size = false ↔
      ∀ i, offset ≤ i → i < offset + size → d i = false := by
  intro size
  induction size with
  | zero => intro offset; simp [anyBit]; omega
  | succ s ih =>
    intro offset
    simp only [anyBit, Bool.or_eq_false_iff, ih (offset + 1)]
    constructor
    · rintro ⟨h0, hrest⟩ i hi1 hi2
      rcases Nat.eq_or_lt_of_le hi1 with h | h
      · exact h ▸ h0
      · exact hrest i h (by omega)
    · intro h
      exact ⟨h offset le_rfl (by omega), fun i hi1 hi2 => h i (by omega) (by omega)⟩

theorem covers_nil (b : Nat) : ¬ covers [] b := by simp [covers]

theorem covers_cons {p : Nat × Nat} {L : List (Nat × Nat)} {b : Nat} :
    covers (p :: L) b ↔ (p.1 ≤ b ∧ b < p.1 + p.2) ∨ covers L b := by
  simp [covers, List.mem_cons, or_and_right, exists_or]

theorem covers_cons' {so ss : Nat} {L : List (Nat × Nat)} {b : Nat} :
    covers ((so, ss) :: L) b ↔ (so ≤ b ∧ b < so + ss) ∨ covers L b :=
  covers_cons

theorem mem_iff_getq {α : Type} (a : α) (l : List α) :
    a ∈ l ↔ ∃ i, l.get? i = some a := by
  simp [List.get?_eq_getElem?, List.mem_iff_getElem?]

theorem getq_lt_length {α : Type} {l : List α} {i : Nat} {a : α}
    (h : l.get? i = some a) : i < l.length :=
  (List.get?_eq_some.mp h).choose

theorem sepSorted_rel {L : List (Nat × Nat)} (h : SepSorted L) {i j : Nat}
    {p q : Nat × Nat} (hi : L.get? i = some p) (hj : L.get? j = some q)
    (hij : i < j) : p.1 + p.2 < q.1 := by
  obtain ⟨hi', hip⟩ := List.get?_eq_some.mp hi
  obtain ⟨hj', hjq⟩ := List.get?_eq_some.mp hj
  have := List.pairwise_iff_get.mp h ⟨i, hi'⟩ ⟨j, hj'⟩ hij
  rwa [hip, hjq] at this

theorem covers_unique {L : List (Nat × Nat)} (h : SepSorted L) {b : Nat}
    {i j : Nat} {p q : Nat × Nat} (hi : L.get? i = some p)
    (hj : L.get? j = some q) (hpb : p.1 ≤ b ∧ b < p.1 + p.2)
    (hqb : q.1 ≤ b ∧ b < q.1 + q.2) : i = j := by
  rcases Nat.lt_trichotomy i j with hij | hij | hij
  · have := sepSorted_rel h hi hj hij; omega
  · exact hij
  · have := sepSorted_rel h hj hi hij; omega

theorem covers_range_single {L : List (Nat × Nat)} (hs : SepSorted L)
    {offset size : Nat} (hsz : 0 < size)
    (hall : ∀ b, offset ≤ b → b < offset + size → covers L b) :
    ∃ p ∈ L, p.1 ≤ offset ∧ offset + size ≤ p.1 + p.2 := by
  obtain ⟨p, hpL, hp1, hp2⟩ := hall offset le_rfl (by omega)
  refine ⟨p, hpL, hp1, ?_⟩
  by_contra hlt
  push_neg at hlt
  have hm1 : offset ≤ p.1 + p.2 := by omega
  obtain ⟨q, hqL, hq1, hq2⟩ := hall (p.1 + p.2) hm1 hlt
  obtain ⟨i, hi⟩ := (mem_iff_getq p L).mp hpL
  obtain ⟨j, hj⟩ := (mem_iff_getq q L).mp hqL
  rcases Nat.lt_trichotomy i j with hij | hij | hij
  · have := sepSorted_rel hs hi hj hij; omega
  · rw [hij, hj] at hi; injection hi with hi; subst hi; omega
  · have := sepSorted_rel hs hj hi hij; omega

/-! ## Characterization of the worst-fit selection loop -/

theorem worstFitGo_eq_best {size : Nat} :
    ∀ (segs : List (Nat × Nat)) (i₀ : Nat) (best : Option Nat) (bestSize : Nat),
      (∀ p ∈ segs, ¬ (size ≤ p.2 ∧ bestSize < p.2)) →
      WorstFitList.worstFitGo size segs i₀ best bestSize = best := by
  intro segs
  induction segs with
  | nil => intro i₀ best bestSize _; rfl
  | cons hd tl ih =>
    intro i₀ best bestSize h
    obtain ⟨o, s⟩ := hd
    have hhd := h (o, s) (List.mem_cons_self _ _)
    simp only [WorstFitList.worstFitGo, if_neg hhd]
    exact ih (i₀ + 1) best bestSize (fun p hp => h p (List.mem_cons_of_mem _ hp))

theorem worstFitGo_none {size : Nat} :
    ∀ (segs : List (Nat × Nat)) (i₀ : Nat) (best : Option Nat) (bestSize : Nat),
      WorstFitList.worstFitGo size segs i₀ best bestSize = none →
      best = none ∧ ∀ p ∈ segs, ¬ (size ≤ p.2 ∧ bestSize < p.2) := by
  intro segs
  induction segs with
  | nil => intro i₀ best bestSize h; exact ⟨h, by simp⟩
  | cons hd tl ih =>
    intro i₀ best bestSize h
    obtain ⟨o, s⟩ := hd
    by_cases hq : size ≤ s ∧ bestSize < s
    · simp only [WorstFitList.worstFitGo, if_pos hq] at h
      obtain ⟨habs, _⟩ := ih (i₀ + 1) (some i₀) s h
      exact absurd habs (by simp)
    · simp only [WorstFitList.worstFitGo, if_neg hq] at h
      obtain ⟨h1, h2⟩ := ih (i₀ + 1) best bestSize h
      refine ⟨h1, fun p hp => ?_⟩
      rcases List.mem_cons.mp hp with rfl | hp
      · exact hq
      · exact h2 p hp

theorem worstFitGo_some {size : Nat} :
    ∀ (segs : List (Nat × Nat)) (i₀ : Nat) (best : Option Nat) (bestSize k : Nat),
      WorstFitList.worstFitGo size segs i₀ best bestSize = some k →
      (best = some k ∧ ∀ p ∈ segs, ¬ (size ≤ p.2 ∧ bestSize < p.2)) ∨
      (∃ m q, k = i₀ + m ∧ segs.get? m = some q ∧ size ≤ q.2 ∧ bestSize < q.2 ∧
        (∀ p ∈ segs, size ≤ p.2 → p.2 ≤ q.2) ∧
        (∀ j p, j < m → segs.get? j = some p → p.2 < q.2 ∨ p.2 ≤ bestSize)) := by
  intro segs
  induction segs with
  | nil => intro i₀ best bestSize k h; exact Or.inl ⟨h, by simp⟩
  | cons hd tl ih =>
    intro i₀ best bestSize k h
    obtain ⟨o, s⟩ := hd
    by_cases hq : size ≤ s ∧ bestSize < s
    · simp only [WorstFitList.worstFitGo, if_pos hq] at h
      rcases ih (i₀ + 1) (some i₀) s k h with ⟨hbest, hall⟩ | ⟨m, q, hk, hget, hsq, hbq, hmax, hbef⟩
      · injection hbest with hbest
        refine Or.inr ⟨0, (o, s), by omega, rfl, hq.1, hq.2, ?_, by omega⟩
        intro p hp hsp
        rcases List.mem_cons.mp hp with rfl | hp
        · exact le_rfl
        · have := hall p hp
          by_contra hc
          exact this ⟨hsp, by omega⟩
      · refine Or.inr ⟨m + 1, q, by omega, hget, hsq, by omega, ?_, ?_⟩
        · intro p hp hsp
          rcases List.mem_cons.mp hp with rfl | hp
          · exact le_of_lt hbq
          · exact hmax p hp hsp
        · intro j p hj hjp
          match j with
          | 0 =>
            injection hjp with hjp
            exact Or.inl (hjp ▸ hbq)
          | j' + 1 =>
            rcases hbef j' p (by omega) hjp with h' | h'
            · exact Or.inl h'
            · exact Or.inl (by omega)
    · simp only [WorstFitList.worstFitGo, if_neg hq] at h
      rcases ih (i₀ + 1) best bestSize k h with ⟨hbest, hall⟩ | ⟨m, q, hk, hget, hsq, hbq, hmax, hbef⟩
      · refine Or.inl ⟨hbest, fun p hp => ?_⟩
        rcases List.mem_cons.mp hp with rfl | hp
        · exact hq
        · exact hall p hp
      · refine Or.inr ⟨m + 1, q, by omega, hget, hsq, hbq, ?_, ?_⟩
        · intro p hp hsp
          rcases List.mem_cons.mp hp with rfl | hp
          · have hbs : s ≤ bestSize := by
              by_contra hc
              exact hq ⟨hsp, by omega⟩
            exact le_trans hbs (le_of_lt hbq)
          · exact hmax p hp hsp
        · intro j p hj hjp
          match j with
          | 0 =>
            injection hjp with hjp
            subst hjp
            by_cases hsp : size ≤ s
            · have hbs : s ≤ bestSize := by
                by_contra hc
                exact hq ⟨hsp, by omega⟩
              exact Or.inr hbs
            · exact Or.inl (show s < q.2 by omega)
          | j' + 1 => exact hbef j' p (by omega) hjp

theorem worstFitFind_none_iff (segs : List (Nat × Nat)) (size : Nat)
    (hsz : 0 < size) :
    WorstFitList.worstFitFind segs size = none ↔ ∀ p ∈ segs, p.2 < size := by
  constructor
  · intro h p hp
    obtain ⟨-, hall⟩ := worstFitGo_none segs 0 none 0 h
    have := hall p hp
    by_contra hc
    exact this ⟨by omega, by omega⟩
  · intro h
    exact worstFitGo_eq_best segs 0 none 0 (fun p hp => by have := h p hp; omega)

theorem worstFitFind_some_spec {segs : List (Nat × Nat)} {size k : Nat}
    (hsz : 0 < size) (h : WorstFitList.worstFitFind segs size = some k) :
    ∃ q, segs.get? k = some q ∧ size ≤ q.2 ∧
      (∀ p ∈ segs, size ≤ p.2 → p.2 ≤ q.2) ∧
      (∀ j p, j < k → segs.get? j = some p → p.2 < q.2) := by
  rcases worstFitGo_some segs 0 none 0 k h with ⟨hbest, -⟩ | ⟨m, q, hk, hget, hsq, -, hmax, hbef⟩
  · cases hbest
  · have hm : m = k := by omega
    subst hm
    refine ⟨q, hget, hsq, hmax, fun j p hj hjp => ?_⟩
    rcases hbef j p hj hjp with h' | h'
    · exact h'
    · omega

end Betree

namespace Betree

/-! ## The free-segment scan of `new` builds a valid free list -/

theorem scanRun_spec (d : Nat → Bool) :
    ∀ fuel offset, SEGMENT_SIZE ≤ offset + fuel → offset ≤ SEGMENT_SIZE →
      (WorstFitList.scanRun d fuel offset).2
          = offset + (WorstFitList.scanRun d fuel offset).1 ∧
      (∀ b, offset ≤ b → b < offset + (WorstFitList.scanRun d fuel offset).1 →
        b < SEGMENT_SIZE ∧ d b = false) ∧
      (WorstFitList.scanRun d fuel offset).2 ≤ SEGMENT_SIZE ∧
      ((WorstFitList.scanRun d fuel offset).2 = SEGMENT_SIZE ∨
        d (WorstFitList.scanRun d fuel offset).2 = true) := by
  intro fuel
  induction fuel with
  | zero =>
    intro offset h1 h2
    have heq : offset = SEGMENT_SIZE := by omega
    subst heq
    refine ⟨rfl, ?_, le_rfl, Or.inl rfl⟩
    intro b hb1 hb2
    exfalso
    simp only [WorstFitList.scanRun] at hb2
    omega
  | succ f ih =>
    intro offset h1 h2
    by_cases hc : offset < SEGMENT_SIZE ∧ d offset = false
    · have hrec := ih (offset + 1) (by omega) (by omega)
      simp only [WorstFitList.scanRun, if_pos hc]
      obtain ⟨e1, e2, e3, e4⟩ := hrec
      refine ⟨by omega, ?_, e3, e4⟩
      intro b hb1 hb2
      rcases Nat.eq_or_lt_of_le hb1 with h | h
      · exact ⟨h ▸ hc.1, h ▸ hc.2⟩
      · exact e2 b h (by omega)
    · simp only [WorstFitList.scanRun, if_neg hc]
      refine ⟨rfl, by omega, h2, ?_⟩
      rcases Nat.eq_or_lt_of_le h2 with h | h
      · exact Or.inl h
      · have : ¬ d offset = false := fun hf => hc ⟨h, hf⟩
        exact Or.inr (by simpa using this)

theorem scanRun_pos (d : Nat → Bool) (fuel offset : Nat)
    (h1 : offset < SEGMENT_SIZE) (h2 : d offset = false) :
    0 < (WorstFitList.scanRun d (fuel + 1) offset).1 := by
  simp only [WorstFitList.scanRun, if_pos (And.intro h1 h2)]
  omega

theorem scanSegs_spec (d : Nat → Bool) :
    ∀ fuel offset, SEGMENT_SIZE ≤ offset + fuel → offset ≤ SEGMENT_SIZE →
      SepSorted (WorstFitList.scanSegs d fuel offset) ∧
      (∀ p ∈ WorstFitList.scanSegs d fuel offset,
        offset ≤ p.1 ∧ 0 < p.2 ∧ p.1 + p.2 ≤ SEGMENT_SIZE) ∧
      (∀ b, offset ≤ b → b < SEGMENT_SIZE →
        (d b = false ↔ covers (WorstFitList.scanSegs d fuel offset) b)) := by
  intro fuel
  induction fuel with
  | zero =>
    intro offset h1 h2
    have : offset = SEGMENT_SIZE := by omega
    subst this
    exact ⟨List.Pairwise.nil, by simp [WorstFitList.scanSegs], by omega⟩
  | succ f ih =>
    intro offset h1 h2
    by_cases hoff : offset < SEGMENT_SIZE
    · by_cases hd0 : d offset = false
      · have hrs := scanRun_spec d (f + 1) offset h1 h2
        obtain ⟨e1, e2, e3, e4⟩ := hrs
        have hpos := scanRun_pos d f offset hoff hd0
        set r := WorstFitList.scanRun d (f + 1) offset with hr
        have hrec := ih r.2 (by omega) e3
        obtain ⟨hsep, hmem, hiff⟩ := hrec
        have hunf : WorstFitList.scanSegs d (f + 1) offset
            = (offset, r.1) :: WorstFitList.scanSegs d f r.2 := by
          simp only [WorstFitList.scanSegs, if_pos hoff, if_pos hd0]
        rw [hunf]
        have hnotail : ∀ q ∈ WorstFitList.scanSegs d f r.2, offset + r.1 < q.1 := by
          intro q hq
          have hq1 := (hmem q hq).1
          rcases Nat.eq_or_lt_of_le hq1 with h | h
          · exfalso
            have hq2 : r.2 < SEGMENT_SIZE := by
              have := (hmem q hq).2.1
              have := (hmem q hq).2.2
              omega
            have hcov : covers (WorstFitList.scanSegs d f r.2) r.2 := by
              refine ⟨q, hq, ?_, ?_⟩ <;> [skip; skip]
              · omega
              · have := (hmem q hq).2.1; omega
            have hdb := (hiff r.2 le_rfl hq2).mpr hcov
            rcases e4 with h4 | h4
            · omega
            · rw [h4] at hdb; cases hdb
          · omega
        refine ⟨?_, ?_, ?_⟩
        · exact List.pairwise_cons.mpr ⟨hnotail, hsep⟩
        · intro p hp
          rcases List.mem_cons.mp hp with rfl | hp
          · exact ⟨le_rfl, hpos, by omega⟩
          · have := hmem p hp; exact ⟨by omega, this.2.1, this.2.2⟩
        · intro b hb1 hb2
          by_cases hbr : b < offset + r.1
          · have hdb := (e2 b hb1 hbr).2
            rw [covers_cons]
            constructor
            · intro _; exact Or.inl ⟨hb1, hbr⟩
            · intro _; exact hdb
          · have : r.2 ≤ b := by omega
            rw [covers_cons]
            rw [← hiff b this hb2]
            constructor
            · intro h'; exact Or.inr h'
            · rintro (⟨-, hcb⟩ | h')
              · omega
              · exact h'
      · have hunf : WorstFitList.scanSegs d (f + 1) offset
            = WorstFitList.scanSegs d f (offset + 1) := by
          simp only [WorstFitList.scanSegs, if_pos hoff, if_neg hd0]
        rw [hunf]
        obtain ⟨hsep, hmem, hiff⟩ := ih (offset + 1) (by omega) (by omega)
        refine ⟨hsep, ?_, ?_⟩
        · intro p hp; have := hmem p hp; exact ⟨by omega, this.2.1, this.2.2⟩
        · intro b hb1 hb2
          rcases Nat.eq_or_lt_of_le hb1 with h | h
          · subst h
            constructor
            · intro hf; exact absurd hf hd0
            · rintro ⟨q, hq, hq1, -⟩
              have := (hmem q hq).1
              omega
          · exact hiff b h hb2
    · have : offset = SEGMENT_SIZE := by omega
      subst this
      have hunf : WorstFitList.scanSegs d (f + 1) SEGMENT_SIZE = [] := by
        simp [WorstFitList.scanSegs]
      rw [hunf]
      exact ⟨List.Pairwise.nil, by simp, by omega⟩

/-- The allocator state built by `WorstFitList::new` satisfies the free-list
invariant, for every initial bitmap. -/
theorem new_inv (bitmap : Nat → Bool) : Inv (WorstFitList.new bitmap) := by
  obtain ⟨hsep, hmem, hiff⟩ :=
    scanSegs_spec bitmap SEGMENT_SIZE 0 (by omega) (by omega)
  exact
    { sep := hsep
      pos := fun p hp => (hmem p hp).2.1
      extent := fun p hp => (hmem p hp).2.2
      bits := fun b hb => hiff b (Nat.zero_le b) hb }

/-- Scanning an all-ones bitmap yields the empty free list. -/
theorem scanSegs_all_true (d : Nat → Bool) (hd : ∀ b, d b = true) :
    ∀ fuel offset, WorstFitList.scanSegs d fuel offset = [] := by
  intro fuel
  induction fuel with
  | zero => intro offset; rfl
  | succ f ih =>
    intro offset
    by_cases hoff : offset < SEGMENT_SIZE
    · have : ¬ d offset = false := by simp [hd offset]
      simp only [WorstFitList.scanSegs, if_pos hoff, if_neg this]
      exact ih (offset + 1)
    · simp only [WorstFitList.scanSegs, if_neg hoff]

/-- `WorstFitList.new` of the all-ones bitmap: the bitmap is adopted and the
free list is empty. -/
theorem new_all_true :
    WorstFitList.new (fun _ => true)
      = { data := fun _ => true, free_segments := [] } := by
  unfold WorstFitList.new
  rw [scanSegs_all_true (fun _ => true) (fun _ => rfl)]

end Betree

namespace Betree

open WorstFitList

/-! ## The deallocate merge loop -/

set_option maxHeartbeats 2000000 in
theorem deallocGo_spec {offset size : Nat} (hsz : 0 < size)
    (hext : offset + size ≤ SEGMENT_SIZE) :
    ∀ L : List (Nat × Nat),
      SepSorted L →
      (∀ p ∈ L, 0 < p.2) →
      (∀ p ∈ L, p.1 + p.2 ≤ SEGMENT_SIZE) →
      (∀ p ∈ L, p.1 + p.2 ≤ offset ∨ offset + size ≤ p.1) →
      SepSorted (deallocGo offset size L) ∧
      (∀ q ∈ deallocGo offset size L, 0 < q.2 ∧ q.1 + q.2 ≤ SEGMENT_SIZE) ∧
      (∀ b, covers (deallocGo offset size L) b ↔
        covers L b ∨ (offset ≤ b ∧ b < offset + size)) ∧
      (∀ q ∈ deallocGo offset size L, q.1 = offset ∨ ∃ p ∈ L, q.1 = p.1) := by
  intro L
  induction L with
  | nil =>
    intro _ _ _ _
    refine ⟨List.pairwise_cons.mpr ⟨by simp, List.Pairwise.nil⟩, ?_, ?_, ?_⟩
    · intro q hq
      rcases List.mem_cons.mp hq with rfl | hq
      · exact ⟨hsz, hext⟩
      · cases hq
    · intro b
      rw [show deallocGo offset size [] = [(offset, size)] from rfl, covers_cons]
      simp [covers_nil]
    · intro q hq
      rcases List.mem_cons.mp hq with rfl | hq
      · exact Or.inl rfl
      · cases hq
  | cons hd rest ih =>
    obtain ⟨so, ss⟩ := hd
    intro hsep hpos hex hdisj
    obtain ⟨hhd, hsepr⟩ := List.pairwise_cons.mp hsep
    have hposh : 0 < ss := hpos (so, ss) (List.mem_cons_self _ _)
    have hexh : so + ss ≤ SEGMENT_SIZE := hex (so, ss) (List.mem_cons_self _ _)
    have hdh : so + ss ≤ offset ∨ offset + size ≤ so :=
      hdisj (so, ss) (List.mem_cons_self _ _)
    by_cases h1 : so + ss = offset
    · -- merge with the preceding segment
      have hrest_lo : ∀ q ∈ rest, offset + size ≤ q.1 := by
        intro q hq
        have h' := hhd q hq
        rcases hdisj q (List.mem_cons_of_mem _ hq) with h'' | h''
        · omega
        · exact h''
      match rest with
      | [] =>
        rw [show deallocGo offset size [(so, ss)] = [(so, ss + size)] by
          simp [deallocGo, h1]]
        refine ⟨List.pairwise_cons.mpr ⟨by simp, List.Pairwise.nil⟩, ?_, ?_, ?_⟩
        · intro q hq
          rcases List.mem_cons.mp hq with rfl | hq
          · exact ⟨by omega, by omega⟩
          · cases hq
        · intro b
          rw [covers_cons, covers_cons]
          simp only [covers_nil, or_false]
          constructor
          · rintro ⟨hb1, hb2⟩
            by_cases hbs : b < so + ss
            · exact Or.inl ⟨hb1, hbs⟩
            · exact Or.inr ⟨by omega, by omega⟩
          · rintro (⟨hb1, hb2⟩ | ⟨hb1, hb2⟩)
            · exact ⟨hb1, by omega⟩
            · exact ⟨by omega, by omega⟩
        · intro q hq
          rcases List.mem_cons.mp hq with rfl | hq
          · exact Or.inr ⟨(so, ss), List.mem_cons_self _ _, rfl⟩
          · cases hq
      | (no, ns) :: rest2 =>
        obtain ⟨hhd2, hsepr2⟩ := List.pairwise_cons.mp hsepr
        have hposn : 0 < ns := hpos (no, ns) (by simp)
        have hexn : no + ns ≤ SEGMENT_SIZE := hex (no, ns) (by simp)
        have hno_lo : offset + size ≤ no := hrest_lo (no, ns) (by simp)
        by_cases h2 : no = offset + size
        · rw [show deallocGo offset size ((so, ss) :: (no, ns) :: rest2)
              = (so, ss + size + ns) :: rest2 by simp [deallocGo, h1, h2]]
          refine ⟨?_, ?_, ?_, ?_⟩
          · refine List.pairwise_cons.mpr ⟨?_, hsepr2⟩
            intro q hq
            have := hhd2 q hq
            simp only at this ⊢
            omega
          · intro q hq
            rcases List.mem_cons.mp hq with rfl | hq
            · exact ⟨by omega, by omega⟩
            · have h3 := hpos q (by simp [hq])
              have h4 := hex q (by simp [hq])
              exact ⟨h3, h4⟩
          · intro b
            simp only [covers_cons']
            constructor
            · rintro (⟨hb1, hb2⟩ | h)
              · by_cases hbs : b < so + ss
                · exact Or.inl (Or.inl ⟨hb1, hbs⟩)
                · by_cases hbo : b < offset + size
                  · exact Or.inr ⟨by omega, hbo⟩
                  · exact Or.inl (Or.inr (Or.inl ⟨by omega, by omega⟩))
              · exact Or.inl (Or.inr (Or.inr h))
            · rintro ((⟨hb1, hb2⟩ | (⟨hb1, hb2⟩ | h)) | ⟨hb1, hb2⟩)
              · exact Or.inl ⟨hb1, by omega⟩
              · exact Or.inl ⟨by omega, by omega⟩
              · exact Or.inr h
              · exact Or.inl ⟨by omega, by omega⟩
          · intro q hq
            rcases List.mem_cons.mp hq with rfl | hq
            · exact Or.inr ⟨(so, ss), List.mem_cons_self _ _, rfl⟩
            · exact Or.inr ⟨q, by simp [hq], rfl⟩
        · rw [show deallocGo offset size ((so, ss) :: (no, ns) :: rest2)
              = (so, ss + size) :: (no, ns) :: rest2 by simp [deallocGo, h1, h2]]
          have hno_str : offset + size < no := by omega
          refine ⟨?_, ?_, ?_, ?_⟩
          · refine List.pairwise_cons.mpr ⟨?_, hsepr⟩
            intro q hq
            rcases List.mem_cons.mp hq with rfl | hq
            · simp only; omega
            · have := hhd2 q hq
              simp only at this ⊢
              omega
          · intro q hq
            rcases List.mem_cons.mp hq with rfl | hq
            · exact ⟨by omega, by omega⟩
            · exact ⟨hpos q (List.mem_cons_of_mem _ hq),
                hex q (List.mem_cons_of_mem _ hq)⟩
          · intro b
            simp only [covers_cons']
            constructor
            · rintro (⟨hb1, hb2⟩ | h)
              · by_cases hbs : b < so + ss
                · exact Or.inl (Or.inl ⟨hb1, hbs⟩)
                · exact Or.inr ⟨by omega, by omega⟩
              · exact Or.inl (Or.inr h)
            · rintro ((⟨hb1, hb2⟩ | h) | ⟨hb1, hb2⟩)
              · exact Or.inl ⟨hb1, by omega⟩
              · exact Or.inr h
              · exact Or.inl ⟨by omega, by omega⟩
          · intro q hq
            rcases List.mem_cons.mp hq with rfl | hq
            · exact Or.inr ⟨(so, ss), List.mem_cons_self _ _, rfl⟩
            · exact Or.inr ⟨q, List.mem_cons_of_mem _ hq, rfl⟩
    · by_cases h2 : offset + size = so
      · -- merge with the following segment
        rw [show deallocGo offset size ((so, ss) :: rest)
            = (offset, ss + size) :: rest by simp [deallocGo, h1, h2]]
        refine ⟨?_, ?_, ?_, ?_⟩
        · refine List.pairwise_cons.mpr ⟨?_, hsepr⟩
          intro q hq
          have := hhd q hq
          simp only at this ⊢
          omega
        · intro q hq
          rcases List.mem_cons.mp hq with rfl | hq
          · exact ⟨by omega, by omega⟩
          · exact ⟨hpos q (List.mem_cons_of_mem _ hq),
              hex q (List.mem_cons_of_mem _ hq)⟩
        · intro b
          simp only [covers_cons']
          constructor
          · rintro (⟨hb1, hb2⟩ | h)
            · by_cases hbo : b < offset + size
              · exact Or.inr ⟨hb1, hbo⟩
              · exact Or.inl (Or.inl ⟨by omega, by omega⟩)
            · exact Or.inl (Or.inr h)
          · rintro ((⟨hb1, hb2⟩ | h) | ⟨hb1, hb2⟩)
            · exact Or.inl ⟨by omega, by omega⟩
            · exact Or.inr h
            · exact Or.inl ⟨hb1, by omega⟩
        · intro q hq
          rcases List.mem_cons.mp hq with rfl | hq
          · exact Or.inl rfl
          · exact Or.inr ⟨q, List.mem_cons_of_mem _ hq, rfl⟩
      · by_cases h3 : offset < so
        · -- insert in front of the current segment
          rw [show deallocGo offset size ((so, ss) :: rest)
              = (offset, size) :: (so, ss) :: rest by simp [deallocGo, h1, h2, h3]]
          have hso : offset + size < so := by
            rcases hdh with h' | h' <;> omega
          refine ⟨?_, ?_, ?_, ?_⟩
          · refine List.pairwise_cons.mpr ⟨?_, hsep⟩
            intro q hq
            rcases List.mem_cons.mp hq with rfl | hq
            · simp only; omega
            · have := hhd q hq
              simp only at this ⊢
              omega
          · intro q hq
            rcases List.mem_cons.mp hq with rfl | hq
            · exact ⟨hsz, hext⟩
            · rcases List.mem_cons.mp hq with rfl | hq
              · exact ⟨hposh, hexh⟩
              · exact ⟨hpos q (List.mem_cons_of_mem _ hq),
                  hex q (List.mem_cons_of_mem _ hq)⟩
          · intro b
            simp only [covers_cons']
            tauto
          · intro q hq
            rcases List.mem_cons.mp hq with rfl | hq
            · exact Or.inl rfl
            · rcases List.mem_cons.mp hq with rfl | hq
              · exact Or.inr ⟨(so, ss), List.mem_cons_self _ _, rfl⟩
              · exact Or.inr ⟨q, List.mem_cons_of_mem _ hq, rfl⟩
        · -- skip the current segment and recurse
          rw [show deallocGo offset size ((so, ss) :: rest)
              = (so, ss) :: deallocGo offset size rest by
            simp [deallocGo, h1, h2, h3]]
          have hso : so + ss < offset := by
            rcases hdh with h' | h' <;> omega
          obtain ⟨rsep, rpos, rcov, rorig⟩ := ih hsepr
            (fun p hp => hpos p (List.mem_cons_of_mem _ hp))
            (fun p hp => hex p (List.mem_cons_of_mem _ hp))
            (fun p hp => hdisj p (List.mem_cons_of_mem _ hp))
          refine ⟨?_, ?_, ?_, ?_⟩
          · refine List.pairwise_cons.mpr ⟨?_, rsep⟩
            intro q hq
            rcases rorig q hq with h' | ⟨p, hp, h'⟩
            · simp only; omega
            · have := hhd p hp
              simp only at this ⊢
              omega
          · intro q hq
            rcases List.mem_cons.mp hq with rfl | hq
            · exact ⟨hposh, hexh⟩
            · exact rpos q hq
          · intro b
            rw [covers_cons']
            rw [rcov b]
            rw [covers_cons']
            tauto
          · intro q hq
            rcases List.mem_cons.mp hq with rfl | hq
            · exact Or.inr ⟨(so, ss), List.mem_cons_self _ _, rfl⟩
            · rcases rorig q hq with h' | ⟨p, hp, h'⟩
              · exact Or.inl h'
              · exact Or.inr ⟨p, List.mem_cons_of_mem _ hp, h'⟩

/-! ## The allocate_at carve loop -/

theorem covers_above {L : List (Nat × Nat)} {lo b : Nat}
    (h : ∀ q ∈ L, lo < q.1) (hcov : covers L b) : lo < b := by
  obtain ⟨q, hq, h1, h2⟩ := hcov
  have := h q hq
  omega

set_option maxHeartbeats 2000000 in
theorem allocAtGo_spec {offset size : Nat} (hsz : 0 < size) :
    ∀ L : List (Nat × Nat),
      SepSorted L →
      (∀ p ∈ L, 0 < p.2) →
      (∀ p ∈ L, p.1 + p.2 ≤ SEGMENT_SIZE) →
      ∀ p₀ ∈ L, p₀.1 ≤ offset → offset + size ≤ p₀.1 + p₀.2 →
      ∃ L', allocAtGo size offset L = some L' ∧
        SepSorted L' ∧
        (∀ q ∈ L', 0 < q.2 ∧ q.1 + q.2 ≤ SEGMENT_SIZE) ∧
        (∀ b, covers L' b ↔ covers L b ∧ ¬ (offset ≤ b ∧ b < offset + size)) ∧
        (∀ q ∈ L', q.1 = offset + size ∨ ∃ p ∈ L, q.1 = p.1) := by
  intro L
  induction L with
  | nil => intro _ _ _ p₀ hp₀ _ _; cases hp₀
  | cons hd rest ih =>
    obtain ⟨so, ss⟩ := hd
    intro hsep hpos hex p₀ hp₀ hc1 hc2
    obtain ⟨hhd, hsepr⟩ := List.pairwise_cons.mp hsep
    have hposh : 0 < ss := hpos (so, ss) (List.mem_cons_self _ _)
    have hexh : so + ss ≤ SEGMENT_SIZE := hex (so, ss) (List.mem_cons_self _ _)
    rcases List.mem_cons.mp hp₀ with heq | hmem
    · -- the head contains the requested range
      subst heq
      simp only at hc1 hc2
      have hrest_hi : ∀ q ∈ rest, so + ss < q.1 := hhd
      by_cases hb1 : so = offset ∧ ss = size
      · refine ⟨rest, ?_, hsepr, ?_, ?_, ?_⟩
        · simp [allocAtGo, hb1.1, hb1.2]
        · exact fun q hq => ⟨hpos q (List.mem_cons_of_mem _ hq),
            hex q (List.mem_cons_of_mem _ hq)⟩
        · intro b
          obtain ⟨rfl, rfl⟩ := hb1
          rw [covers_cons']
          constructor
          · intro hcov
            have := covers_above hrest_hi hcov
            exact ⟨Or.inr hcov, by omega⟩
          · rintro ⟨hcov, hnr⟩
            rcases hcov with ⟨hb, hb'⟩ | h
            · exact absurd ⟨hb, hb'⟩ hnr
            · exact h
        · exact fun q hq => Or.inr ⟨q, List.mem_cons_of_mem _ hq, rfl⟩
      · by_cases hb2 : so = offset ∧ size < ss
        · refine ⟨(so + size, ss - size) :: rest, ?_, ?_, ?_, ?_, ?_⟩
          · simp only [allocAtGo, if_neg hb1, if_pos hb2]
          · refine List.pairwise_cons.mpr ⟨?_, hsepr⟩
            intro q hq
            have := hrest_hi q hq
            simp only at this ⊢
            omega
          · intro q hq
            rcases List.mem_cons.mp hq with rfl | hq
            · exact ⟨by omega, by omega⟩
            · exact ⟨hpos q (List.mem_cons_of_mem _ hq),
                hex q (List.mem_cons_of_mem _ hq)⟩
          · intro b
            rw [covers_cons', covers_cons']
            obtain ⟨rfl, hlt⟩ := hb2
            constructor
            · rintro (⟨h1', h2'⟩ | h)
              · exact ⟨Or.inl ⟨by omega, by omega⟩, by omega⟩
              · have := covers_above hrest_hi h
                exact ⟨Or.inr h, by omega⟩
            · rintro ⟨hcov, hnr⟩
              rcases hcov with ⟨h1', h2'⟩ | h
              · have : so + size ≤ b := by
                  by_contra hx
                  exact hnr ⟨h1', by omega⟩
                exact Or.inl ⟨this, by omega⟩
              · exact Or.inr h
          · intro q hq
            rcases List.mem_cons.mp hq with rfl | hq
            · exact Or.inl (by simp [hb2.1])
            · exact Or.inr ⟨q, List.mem_cons_of_mem _ hq, rfl⟩
        · by_cases hb3 : so < offset ∧ offset + size = so + ss
          · refine ⟨(so, ss - size) :: rest, ?_, ?_, ?_, ?_, ?_⟩
            · simp only [allocAtGo, if_neg hb1, if_neg hb2, if_pos hb3]
            · refine List.pairwise_cons.mpr ⟨?_, hsepr⟩
              intro q hq
              have := hrest_hi q hq
              simp only at this ⊢
              omega
            · intro q hq
              rcases List.mem_cons.mp hq with rfl | hq
              · obtain ⟨hlt, heq⟩ := hb3
                exact ⟨by omega, by omega⟩
              · exact ⟨hpos q (List.mem_cons_of_mem _ hq),
                  hex q (List.mem_cons_of_mem _ hq)⟩
            · intro b
              rw [covers_cons', covers_cons']
              obtain ⟨hlt, heq⟩ := hb3
              constructor
              · rintro (⟨h1', h2'⟩ | h)
                · exact ⟨Or.inl ⟨h1', by omega⟩, by omega⟩
                · have := covers_above hrest_hi h
                  exact ⟨Or.inr h, by omega⟩
              · rintro ⟨hcov, hnr⟩
                rcases hcov with ⟨h1', h2'⟩ | h
                · have : b < offset := by
                    by_contra hx
                    exact hnr ⟨by omega, by omega⟩
                  exact Or.inl ⟨h1', by omega⟩
                · exact Or.inr h
            · intro q hq
              rcases List.mem_cons.mp hq with rfl | hq
              · exact Or.inr ⟨(so, ss), List.mem_cons_self _ _, rfl⟩
              · exact Or.inr ⟨q, List.mem_cons_of_mem _ hq, rfl⟩
          · by_cases hb4 : so < offset ∧ offset < so + ss ∧ offset + size < so + ss
            · refine ⟨(so, offset - so) ::
                  (offset + size, ss - (size + (offset - so))) :: rest,
                  ?_, ?_, ?_, ?_, ?_⟩
              · simp only [allocAtGo, if_neg hb1, if_neg hb2, if_neg hb3,
                  if_pos hb4]
              · obtain ⟨hlt, hmid, hend⟩ := hb4
                refine List.pairwise_cons.mpr ⟨?_, List.pairwise_cons.mpr ⟨?_, hsepr⟩⟩
                · intro q hq
                  rcases List.mem_cons.mp hq with rfl | hq
                  · simp only; omega
                  · have := hrest_hi q hq
                    simp only at this ⊢
                    omega
                · intro q hq
                  have := hrest_hi q hq
                  simp only at this ⊢
                  omega
              · obtain ⟨hlt, hmid, hend⟩ := hb4
                intro q hq
                rcases List.mem_cons.mp hq with rfl | hq
                · exact ⟨by omega, by omega⟩
                · rcases List.mem_cons.mp hq with rfl | hq
                  · exact ⟨by omega, by omega⟩
                  · exact ⟨hpos q (List.mem_cons_of_mem _ hq),
                      hex q (List.mem_cons_of_mem _ hq)⟩
              · intro b
                rw [covers_cons', covers_cons', covers_cons']
                obtain ⟨hlt, hmid, hend⟩ := hb4
                constructor
                · rintro (⟨h1', h2'⟩ | (⟨h1', h2'⟩ | h))
                  · exact ⟨Or.inl ⟨h1', by omega⟩, by omega⟩
                  · exact ⟨Or.inl ⟨by omega, by omega⟩, by omega⟩
                  · have := covers_above hrest_hi h
                    exact ⟨Or.inr h, by omega⟩
                · rintro ⟨hcov, hnr⟩
                  rcases hcov with ⟨h1', h2'⟩ | h
                  · by_cases hbo : b < offset
                    · exact Or.inl ⟨h1', by omega⟩
                    · have : offset + size ≤ b := by
                        by_contra hx
                        exact hnr ⟨by omega, by omega⟩
                      exact Or.inr (Or.inl ⟨this, by omega⟩)
                  · exact Or.inr (Or.inr h)
              · intro q hq
                rcases List.mem_cons.mp hq with rfl | hq
                · exact Or.inr ⟨(so, ss), List.mem_cons_self _ _, rfl⟩
                · rcases List.mem_cons.mp hq with rfl | hq
                  · exact Or.inl rfl
                  · exact Or.inr ⟨q, List.mem_cons_of_mem _ hq, rfl⟩
            · exfalso
              by_cases hso : so = offset
              · subst hso
                exact hb2 ⟨rfl, by omega⟩
              · have h1 : so < offset := by omega
                by_cases he : offset + size = so + ss
                · exact hb3 ⟨h1, he⟩
                · exact hb4 ⟨h1, by omega, by omega⟩
    · -- the head is disjoint from the requested range; recurse
      have hlo : so + ss < p₀.1 := hhd p₀ hmem
      have hb1 : ¬ (so = offset ∧ ss = size) := by
        rintro ⟨rfl, rfl⟩; omega
      have hb2 : ¬ (so = offset ∧ size < ss) := by
        rintro ⟨rfl, -⟩; omega
      have hb3 : ¬ (so < offset ∧ offset + size = so + ss) := by
        rintro ⟨-, he⟩; omega
      have hb4 : ¬ (so < offset ∧ offset < so + ss ∧ offset + size < so + ss) := by
        rintro ⟨-, he, -⟩; omega
      obtain ⟨L'', heq'', hsep'', hpe'', hcov'', horig''⟩ :=
        ih hsepr (fun p hp => hpos p (List.mem_cons_of_mem _ hp))
          (fun p hp => hex p (List.mem_cons_of_mem _ hp)) p₀ hmem hc1 hc2
      refine ⟨(so, ss) :: L'', ?_, ?_, ?_, ?_, ?_⟩
      · simp only [allocAtGo, if_neg hb1, if_neg hb2, if_neg hb3, if_neg hb4,
          heq'', Option.map_some']
      · refine List.pairwise_cons.mpr ⟨?_, hsep''⟩
        intro q hq
        rcases horig'' q hq with h' | ⟨p, hp, h'⟩
        · simp only; omega
        · have := hhd p hp
          simp only at this ⊢
          omega
      · intro q hq
        rcases List.mem_cons.mp hq with rfl | hq
        · exact ⟨hposh, hexh⟩
        · exact hpe'' q hq
      · intro b
        rw [covers_cons', covers_cons']
        rw [hcov'' b]
        constructor
        · rintro (⟨h1', h2'⟩ | ⟨h, hnr⟩)
          · exact ⟨Or.inl ⟨h1', h2'⟩, by omega⟩
          · exact ⟨Or.inr h, hnr⟩
        · rintro ⟨hcov, hnr⟩
          rcases hcov with h | h
          · exact Or.inl h
          · exact Or.inr ⟨h, hnr⟩
      · intro q hq
        rcases List.mem_cons.mp hq with rfl | hq
        · exact Or.inr ⟨(so, ss), List.mem_cons_self _ _, rfl⟩
        · rcases horig'' q hq with h' | ⟨p, hp, h'⟩
          · exact Or.inl h'
          · exact Or.inr ⟨p, List.mem_cons_of_mem _ hp, h'⟩

/-! ## Invariant preservation of the three operations -/

theorem sepSorted_iff_getq {L : List (Nat × Nat)} :
    SepSorted L ↔ ∀ i j (p q : Nat × Nat), i < j → L.get? i = some p →
      L.get? j = some q → p.1 + p.2 < q.1 := by
  constructor
  · intro h i j p q hij hi hj
    exact sepSorted_rel h hi hj hij
  · intro h
    refine List.pairwise_iff_get.mpr ?_
    intro i j hij
    exact h i j _ _ hij (List.get?_eq_get i.isLt) (List.get?_eq_get j.isLt)

theorem pairwise_set_mono {l : List (Nat × Nat)} {k : Nat} {x y : Nat × Nat}
    (hk : l.get? k = some x) (hsep : SepSorted l)
    (h1 : ∀ q : Nat × Nat, q.1 + q.2 < x.1 → q.1 + q.2 < y.1)
    (h2 : ∀ q : Nat × Nat, x.1 + x.2 < q.1 → y.1 + y.2 < q.1) :
    SepSorted (l.set k y) := by
  have hklen : k < l.length := getq_lt_length hk
  rw [sepSorted_iff_getq]
  intro i j p q hij hi hj
  by_cases hik : k = i
  · subst hik
    rw [List.get?_set_eq_of_lt _ hklen] at hi
    injection hi with hi
    subst hi
    have hj' : l.get? j = some q := by
      rwa [List.get?_set_ne _ _ (by omega)] at hj
    exact h2 q (sepSorted_rel hsep hk hj' hij)
  · rw [List.get?_set_ne _ _ hik] at hi
    by_cases hjk : k = j
    · subst hjk
      rw [List.get?_set_eq_of_lt _ hklen] at hj
      injection hj with hj
      subst hj
      exact h1 p (sepSorted_rel hsep hi hk hij)
    · rw [List.get?_set_ne _ _ hjk] at hj
      exact sepSorted_rel hsep hi hj hij

theorem covers_set {l : List (Nat × Nat)} {k : Nat} {x y : Nat × Nat} {b : Nat}
    (hk : l.get? k = some x) (hsep : SepSorted l) :
    covers (l.set k y) b ↔
      (covers l b ∧ ¬ (x.1 ≤ b ∧ b < x.1 + x.2)) ∨ (y.1 ≤ b ∧ b < y.1 + y.2) := by
  have hklen : k < l.length := getq_lt_length hk
  constructor
  · intro hcov
    obtain ⟨q, hq, hq1, hq2⟩ := hcov
    obtain ⟨j, hj⟩ := (mem_iff_getq q _).mp hq
    by_cases hjk : k = j
    · subst hjk
      rw [List.get?_set_eq_of_lt _ hklen] at hj
      injection hj with hj
      subst hj
      exact Or.inr ⟨hq1, hq2⟩
    · rw [List.get?_set_ne _ _ hjk] at hj
      refine Or.inl ⟨⟨q, List.get?_mem hj, hq1, hq2⟩, ?_⟩
      rintro ⟨hx1, hx2⟩
      exact hjk (covers_unique hsep hk hj ⟨hx1, hx2⟩ ⟨hq1, hq2⟩)
  · rintro (⟨⟨q, hq, hq1, hq2⟩, hnx⟩ | ⟨hy1, hy2⟩)
    · obtain ⟨j, hj⟩ := (mem_iff_getq q _).mp hq
      have hjk : k ≠ j := by
        rintro rfl
        rw [hj] at hk
        injection hk with hk
        subst hk
        exact hnx ⟨hq1, hq2⟩
      refine ⟨q, ?_, hq1, hq2⟩
      exact List.get?_mem (by rwa [List.get?_set_ne _ _ hjk])
    · refine ⟨y, ?_, hy1, hy2⟩
      exact List.get?_mem (List.get?_set_eq_of_lt _ hklen)

theorem allocAtGo_cons_eq (size offset so ss : Nat) (rest : List (Nat × Nat)) :
    allocAtGo size offset ((so, ss) :: rest) =
      if so = offset ∧ ss = size then some rest
      else if so = offset ∧ size < ss then some ((so + size, ss - size) :: rest)
      else if so < offset ∧ offset + size = so + ss then
        some ((so, ss - size) :: rest)
      else if so < offset ∧ offset < so + ss ∧ offset + size < so + ss then
        some ((so, offset - so) ::
          (offset + size, ss - (size + (offset - so))) :: rest)
      else (allocAtGo size offset rest).map ((so, ss) :: ·) := rfl

theorem disj_of_all_set {a : WorstFitList} (hinv : Inv a) {offset size : Nat}
    (hext : offset + size ≤ SEGMENT_SIZE) (hsz : 0 < size)
    (hones : ∀ b, offset ≤ b → b < offset + size → a.data b = true) :
    ∀ p ∈ a.free_segments, p.1 + p.2 ≤ offset ∨ offset + size ≤ p.1 := by
  intro p hp
  by_contra hc
  push_neg at hc
  obtain ⟨hc1, hc2⟩ := hc
  have hppos := hinv.pos p hp
  have hpex := hinv.extent p hp
  rcases Nat.le_total offset p.1 with hcase | hcase
  · have hcb : covers a.free_segments p.1 := ⟨p, hp, le_rfl, by omega⟩
    have hblt : p.1 < SEGMENT_SIZE := by omega
    have h0 := (hinv.bits _ hblt).mpr hcb
    have h1 := hones p.1 hcase (by omega)
    simp_all
  · have hcb : covers a.free_segments offset := ⟨p, hp, hcase, by omega⟩
    have hblt : offset < SEGMENT_SIZE := by omega
    have h0 := (hinv.bits _ hblt).mpr hcb
    have h1 := hones offset le_rfl (by omega)
    simp_all

theorem allocate_eq_of_found {a : WorstFitList} {size k o L : Nat}
    (hsz : size ≠ 0) (hfind : worstFitFind a.free_segments size = some k)
    (hget : a.free_segments.get? k = some (o, L)) :
    a.allocate size = (some o,
      { data := mark a.data o size true,
        free_segments := a.free_segments.set k (o + size, L - size) }) := by
  simp only [WorstFitList.allocate, if_neg hsz, hfind, hget]

theorem allocate_eq_of_none {a : WorstFitList} {size : Nat}
    (hsz : size ≠ 0) (hfind : worstFitFind a.free_segments size = none) :
    a.allocate size = (none, a) := by
  simp only [WorstFitList.allocate, if_neg hsz, hfind]

theorem allocate_inv {a : WorstFitList} (hinv : Inv a) (size : Nat)
    (hok : opOk a (.alloc size)) : Inv (a.allocate size).2 := by
  by_cases hsz : size = 0
  · subst hsz
    simp only [WorstFitList.allocate, if_pos rfl]
    exact hinv
  · rcases hfind : worstFitFind a.free_segments size with _ | k
    · rw [allocate_eq_of_none hsz hfind]
      exact hinv
    · obtain ⟨q, hget, hsq, hmax, hbef⟩ :=
        worstFitFind_some_spec (Nat.pos_of_ne_zero hsz) hfind
      obtain ⟨o, L⟩ := q
      simp only at hsq hmax hbef
      rw [allocate_eq_of_found hsz hfind hget]
      have hL : size < L := by
        rcases hok with h | h
        · exact absurd h hsz
        · exact h k o L hfind hget
      have hmemx : (o, L) ∈ a.free_segments := List.get?_mem hget
      have hxex : o + L ≤ SEGMENT_SIZE := hinv.extent (o, L) hmemx
      refine
        { sep := ?_
          pos := ?_
          extent := ?_
          bits := ?_ }
      · refine pairwise_set_mono hget hinv.sep ?_ ?_
        · intro q' h'
          simp only at h' ⊢
          omega
        · intro q' h'
          simp only at h' ⊢
          omega
      · intro p hp
        rcases List.mem_or_eq_of_mem_set hp with hp | rfl
        · exact hinv.pos p hp
        · simp only
          omega
      · intro p hp
        rcases List.mem_or_eq_of_mem_set hp with hp | rfl
        · exact hinv.extent p hp
        · simp only
          omega
      · intro b hb
        simp only
        rw [covers_set hget hinv.sep]
        by_cases hr : o ≤ b ∧ b < o + size
        · rw [mark_mem _ _ _ _ _ hr.1 hr.2]
          simp only
          constructor
          · intro h
            cases h
          · rintro (⟨-, hnx⟩ | ⟨h1, h2⟩)
            · exact absurd ⟨by omega, by omega⟩ hnx
            · omega
        · rw [mark_not_mem _ _ _ _ _ hr]
          rw [hinv.bits b hb]
          constructor
          · intro hcov
            by_cases hx : o ≤ b ∧ b < o + L
            · exact Or.inr ⟨by omega, by omega⟩
            · exact Or.inl ⟨hcov, by omega⟩
          · rintro (⟨hcov, -⟩ | ⟨h1, h2⟩)
            · exact hcov
            · exact ⟨(o, L), hmemx, by omega, by omega⟩

theorem deallocate_inv {a : WorstFitList} (hinv : Inv a) (offset size : Nat)
    (hok : opOk a (.dealloc offset size)) : Inv (a.deallocate offset size) := by
  by_cases hoob : SEGMENT_SIZE < offset + size
  · simp only [WorstFitList.deallocate, if_pos hoob]
    exact hinv
  · rcases hok with h | ⟨hsz, hones⟩
    · exact absurd h hoob
    · have hext : offset + size ≤ SEGMENT_SIZE := by omega
      have hdisj : ∀ p ∈ a.free_segments,
          p.1 + p.2 ≤ offset ∨ offset + size ≤ p.1 :=
        disj_of_all_set hinv hext hsz hones
      obtain ⟨gsep, gpe, gcov, -⟩ :=
        deallocGo_spec hsz hext a.free_segments hinv.sep hinv.pos hinv.extent hdisj
      simp only [WorstFitList.deallocate, if_neg hoob]
      refine
        { sep := gsep
          pos := fun p hp => (gpe p hp).1
          extent := fun p hp => (gpe p hp).2
          bits := ?_ }
      intro b hb
      simp only
      rw [gcov b]
      by_cases hr : offset ≤ b ∧ b < offset + size
      · rw [mark_mem _ _ _ _ _ hr.1 hr.2]
        constructor
        · intro _; exact Or.inr hr
        · intro _; rfl
      · rw [mark_not_mem _ _ _ _ _ hr]
        rw [hinv.bits b hb]
        constructor
        · exact Or.inl
        · rintro (h | h)
          · exact h
          · exact absurd h hr

theorem allocate_at_inv {a : WorstFitList} (hinv : Inv a) (size offset : Nat) :
    Inv (a.allocate_at size offset).2 := by
  by_cases hsz : size = 0
  · simp only [WorstFitList.allocate_at, if_pos hsz]
    exact hinv
  · by_cases hoob : SEGMENT_SIZE < offset + size
    · simp only [WorstFitList.allocate_at, if_neg hsz, if_pos hoob]
      exact hinv
    · rcases hany : anyBit a.data offset size with _ | _
      · have hzero : ∀ i, offset ≤ i → i < offset + size → a.data i = false :=
          (anyBit_eq_false_iff a.data size offset).mp hany
        have hallcov : ∀ b, offset ≤ b → b < offset + size →
            covers a.free_segments b := by
          intro b h1 h2
          exact (hinv.bits b (by omega)).mp (hzero b h1 h2)
        obtain ⟨p₀, hp₀, hp₀1, hp₀2⟩ :=
          covers_range_single hinv.sep (Nat.pos_of_ne_zero hsz) hallcov
        obtain ⟨L', heq', hsep', hpe', hcov', -⟩ :=
          allocAtGo_spec (Nat.pos_of_ne_zero hsz) a.free_segments hinv.sep
            hinv.pos hinv.extent p₀ hp₀ hp₀1 hp₀2
        simp only [WorstFitList.allocate_at, if_neg hsz, if_neg hoob, hany,
          Bool.false_eq_true, if_neg (by simp : ¬ False), heq']
        refine
          { sep := hsep'
            pos := fun p hp => (hpe' p hp).1
            extent := fun p hp => (hpe' p hp).2
            bits := ?_ }
        intro b hb
        simp only
        rw [hcov' b]
        by_cases hr : offset ≤ b ∧ b < offset + size
        · rw [mark_mem _ _ _ _ _ hr.1 hr.2]
          constructor
          · intro h; cases h
          · rintro ⟨-, hn⟩; exact absurd hr hn
        · rw [mark_not_mem _ _ _ _ _ hr]
          rw [hinv.bits b hb]
          constructor
          · intro h; exact ⟨h, hr⟩
          · rintro ⟨h, -⟩; exact h
      · simp only [WorstFitList.allocate_at, if_neg hsz, if_neg hoob, hany]
        rcases hgo : allocAtGo size offset a.free_segments with _ | L'
        · simp only [hgo]
          exact hinv
        · simp only [hgo]
          exact hinv

theorem applyOp_inv {a : WorstFitList} (hinv : Inv a) {op : AllocOp}
    (hok : opOk a op) : Inv (applyOp a op) := by
  match op with
  | .alloc size => exact allocate_inv hinv size hok
  | .dealloc offset size => exact deallocate_inv hinv offset size hok
  | .allocAt size offset => exact allocate_at_inv hinv size offset

theorem applyOps_inv {a : WorstFitList} (hinv : Inv a) :
    ∀ ops : List AllocOp, opsOk a ops → Inv (applyOps a ops) := by
  intro ops
  induction ops generalizing a with
  | nil => intro _; exact hinv
  | cons op rest ih =>
    rintro ⟨hok, hoks⟩
    exact ih (applyOp_inv hinv hok) hoks

/-! ## Deallocate followed by exact re-allocation restores the free list -/

set_option maxHeartbeats 1000000 in
theorem deallocGo_allocAtGo_restore {offset size : Nat} (hsz : 0 < size) :
    ∀ L : List (Nat × Nat),
      SepSorted L →
      (∀ p ∈ L, 0 < p.2) →
      (∀ p ∈ L, p.1 + p.2 ≤ offset ∨ offset + size ≤ p.1) →
      allocAtGo size offset (deallocGo offset size L) = some L := by
  intro L
  induction L with
  | nil =>
    intro _ _ _
    show allocAtGo size offset [(offset, size)] = some []
    rw [allocAtGo_cons_eq, if_pos ⟨rfl, rfl⟩]
  | cons hd rest ih =>
    obtain ⟨so, ss⟩ := hd
    intro hsep hpos hdisj
    obtain ⟨hhd, hsepr⟩ := List.pairwise_cons.mp hsep
    have hposh : 0 < ss := hpos (so, ss) (List.mem_cons_self _ _)
    have hdh : so + ss ≤ offset ∨ offset + size ≤ so :=
      hdisj (so, ss) (List.mem_cons_self _ _)
    by_cases h1 : so + ss = offset
    · have hso_lt : so < offset := by omega
      match rest with
      | [] =>
        rw [show deallocGo offset size [(so, ss)] = [(so, ss + size)] by
          simp [deallocGo, h1]]
        have hb1 : ¬ (so = offset ∧ ss + size = size) := by rintro ⟨rfl, -⟩; omega
        have hb2 : ¬ (so = offset ∧ size < ss + size) := by rintro ⟨rfl, -⟩; omega
        have hb3 : so < offset ∧ offset + size = so + (ss + size) := ⟨hso_lt, by omega⟩
        rw [allocAtGo_cons_eq, if_neg hb1, if_neg hb2, if_pos hb3]
        have e2 : ss + size - size = ss := by omega
        rw [e2]
      | (no, ns) :: rest2 =>
        obtain ⟨hhd2, -⟩ := List.pairwise_cons.mp hsepr
        have hposn : 0 < ns := hpos (no, ns) (by simp)
        have hno_lo : offset + size ≤ no := by
          rcases hdisj (no, ns) (by simp) with h' | h'
          · have := hhd (no, ns) (by simp)
            simp only at this
            omega
          · exact h'
        by_cases h2 : no = offset + size
        · rw [show deallocGo offset size ((so, ss) :: (no, ns) :: rest2)
              = (so, ss + size + ns) :: rest2 by simp [deallocGo, h1, h2]]
          have hb1 : ¬ (so = offset ∧ ss + size + ns = size) := by
            rintro ⟨rfl, -⟩; omega
          have hb2 : ¬ (so = offset ∧ size < ss + size + ns) := by
            rintro ⟨rfl, -⟩; omega
          have hb3 : ¬ (so < offset ∧ offset + size = so + (ss + size + ns)) := by
            rintro ⟨-, he⟩; omega
          have hb4 : so < offset ∧ offset < so + (ss + size + ns) ∧
              offset + size < so + (ss + size + ns) := ⟨hso_lt, by omega, by omega⟩
          rw [allocAtGo_cons_eq, if_neg hb1, if_neg hb2, if_neg hb3, if_pos hb4]
          have e1 : offset - so = ss := by omega
          rw [e1]
          have e2 : ss + size + ns - (size + ss) = ns := by omega
          rw [e2, ← h2]
        · rw [show deallocGo offset size ((so, ss) :: (no, ns) :: rest2)
              = (so, ss + size) :: (no, ns) :: rest2 by simp [deallocGo, h1, h2]]
          have hb1 : ¬ (so = offset ∧ ss + size = size) := by rintro ⟨rfl, -⟩; omega
          have hb2 : ¬ (so = offset ∧ size < ss + size) := by rintro ⟨rfl, -⟩; omega
          have hb3 : so < offset ∧ offset + size = so + (ss + size) :=
            ⟨hso_lt, by omega⟩
          rw [allocAtGo_cons_eq, if_neg hb1, if_neg hb2, if_pos hb3]
          have e2 : ss + size - size = ss := by omega
          rw [e2]
    · by_cases h2 : offset + size = so
      · rw [show deallocGo offset size ((so, ss) :: rest)
            = (offset, ss + size) :: rest by simp [deallocGo, h1, h2]]
        have hb1 : ¬ (offset = offset ∧ ss + size = size) := by
          rintro ⟨-, he⟩; omega
        have hb2 : offset = offset ∧ size < ss + size := ⟨rfl, by omega⟩
        rw [allocAtGo_cons_eq, if_neg hb1, if_pos hb2]
        have e2 : ss + size - size = ss := by omega
        rw [h2, e2]
      · by_cases h3 : offset < so
        · rw [show deallocGo offset size ((so, ss) :: rest)
              = (offset, size) :: (so, ss) :: rest by simp [deallocGo, h1, h2, h3]]
          rw [allocAtGo_cons_eq, if_pos ⟨rfl, rfl⟩]
        · have hso : so + ss < offset := by
            rcases hdh with h' | h' <;> omega
          rw [show deallocGo offset size ((so, ss) :: rest)
              = (so, ss) :: deallocGo offset size rest by
            simp [deallocGo, h1, h2, h3]]
          have hb1 : ¬ (so = offset ∧ ss = size) := by rintro ⟨rfl, -⟩; omega
          have hb2 : ¬ (so = offset ∧ size < ss) := by rintro ⟨rfl, -⟩; omega
          have hb3 : ¬ (so < offset ∧ offset + size = so + ss) := by
            rintro ⟨-, he⟩; omega
          have hb4 : ¬ (so < offset ∧ offset < so + ss ∧ offset + size < so + ss) := by
            rintro ⟨-, he, -⟩; omega
          rw [allocAtGo_cons_eq, if_neg hb1, if_neg hb2, if_neg hb3, if_neg hb4]
          rw [ih hsepr (fun p hp => hpos p (List.mem_cons_of_mem _ hp))
            (fun p hp => hdisj p (List.mem_cons_of_mem _ hp))]
          rfl

end Betree

namespace Betree

open WorstFitList

/-! ## Invariants of the concrete fixtures -/

theorem inv_wflAllOnes : Inv wflAllOnes := by
  refine
    { sep := List.Pairwise.nil
      pos := by simp [wflAllOnes]
      extent := by simp [wflAllOnes]
      bits := ?_ }
  intro b _
  simp [wflAllOnes, covers_nil]

theorem inv_single {o s : Nat} {d : Nat → Bool} (hs : 0 < s)
    (he : o + s ≤ SEGMENT_SIZE)
    (hd : ∀ b, b < SEGMENT_SIZE → (d b = false ↔ (o ≤ b ∧ b < o + s))) :
    Inv { data := d, free_segments := [(o, s)] } := by
  refine
    { sep := List.pairwise_cons.mpr ⟨by simp, List.Pairwise.nil⟩
      pos := ?_
      extent := ?_
      bits := ?_ }
  · intro p hp
    rcases List.mem_cons.mp hp with rfl | hp
    · exact hs
    · cases hp
  · intro p hp
    rcases List.mem_cons.mp hp with rfl | hp
    · exact he
    · cases hp
  · intro b hb
    rw [hd b hb]
    simp only [covers_cons', covers_nil, or_false]

theorem inv_wflRun5 : Inv wflRun5 := by
  refine inv_single (by omega) (by decide) ?_
  intro b _
  simp [decide_eq_false_iff_not]

theorem inv_wflScenario2 : Inv wflScenario2 := by
  refine inv_single (by omega) (by decide) ?_
  intro b _
  simp [decide_eq_false_iff_not]

/-! ## Claim theorems: the allocator -/

/-- Claim C2 (amended): on any state satisfying the free-list invariant and
any positive size, `allocate` either returns `None` leaving the state
untouched (when no run is long enough), or picks the first free run of
maximal length among those of length at least `size`, returns its leading
offset, whose `size` bits were all 0 before and are all 1 after while all
other bits are untouched, and truncates that run in place by `size` from the
front — leaving a zero-length entry when the run is consumed exactly, rather
than removing it as the original claim states. -/
theorem claim2_worst_fit_allocate (a : WorstFitList) (size : Nat)
    (hinv : Inv a) (hsz : 0 < size) :
    ((∀ p ∈ a.free_segments, p.2 < size) → a.allocate size = (none, a)) ∧
    ((∃ p ∈ a.free_segments, size ≤ p.2) →
      ∃ k o L, a.free_segments.get? k = some (o, L) ∧ size ≤ L ∧
        (∀ p ∈ a.free_segments, size ≤ p.2 → p.2 ≤ L) ∧
        (∀ j q, j < k → a.free_segments.get? j = some q → q.2 < L) ∧
        (a.allocate size).1 = some o ∧
        (a.allocate size).2.free_segments
          = a.free_segments.set k (o + size, L - size) ∧
        (∀ b, o ≤ b → b < o + size →
          a.data b = false ∧ (a.allocate size).2.data b = true) ∧
        (∀ b, ¬ (o ≤ b ∧ b < o + size) →
          (a.allocate size).2.data b = a.data b)) := by
  have hsz' : size ≠ 0 := by omega
  constructor
  · intro hall
    exact allocate_eq_of_none hsz' ((worstFitFind_none_iff _ _ hsz).mpr hall)
  · rintro ⟨p, hp, hple⟩
    rcases hfind : worstFitFind a.free_segments size with _ | k
    · exfalso
      have := (worstFitFind_none_iff _ _ hsz).mp hfind p hp
      omega
    · obtain ⟨q, hget, hsq, hmax, hbef⟩ := worstFitFind_some_spec hsz hfind
      obtain ⟨o, L⟩ := q
      simp only at hsq hmax hbef
      have heq := allocate_eq_of_found hsz' hfind hget
      have hmem : (o, L) ∈ a.free_segments := List.get?_mem hget
      have hex : o + L ≤ SEGMENT_SIZE := hinv.extent (o, L) hmem
      refine ⟨k, o, L, hget, hsq, hmax, hbef, ?_, ?_, ?_, ?_⟩
      · rw [heq]
      · rw [heq]
      · intro b hb1 hb2
        have hbL : b < o + L := by omega
        have hcov : covers a.free_segments b := ⟨(o, L), hmem, hb1, hbL⟩
        have hb0 : a.data b = false := (hinv.bits b (by omega)).mpr hcov
        refine ⟨hb0, ?_⟩
        rw [heq]
        exact mark_mem _ _ _ _ _ hb1 hb2
      · intro b hnr
        rw [heq]
        exact mark_not_mem _ _ _ _ _ hnr

/-- Witness for claim C2: the amended statement instantiated on the fixture
with free run `(0, 5)` and request size 3. -/
theorem claim2_worst_fit_allocate_witness :
    ((∀ p ∈ wflRun5.free_segments, p.2 < 3) → wflRun5.allocate 3 = (none, wflRun5)) ∧
    ((∃ p ∈ wflRun5.free_segments, 3 ≤ p.2) →
      ∃ k o L, wflRun5.free_segments.get? k = some (o, L) ∧ 3 ≤ L ∧
        (∀ p ∈ wflRun5.free_segments, 3 ≤ p.2 → p.2 ≤ L) ∧
        (∀ j q, j < k → wflRun5.free_segments.get? j = some q → q.2 < L) ∧
        (wflRun5.allocate 3).1 = some o ∧
        (wflRun5.allocate 3).2.free_segments
          = wflRun5.free_segments.set k (o + 3, L - 3) ∧
        (∀ b, o ≤ b → b < o + 3 →
          wflRun5.data b = false ∧ (wflRun5.allocate 3).2.data b = true) ∧
        (∀ b, ¬ (o ≤ b ∧ b < o + 3) →
          (wflRun5.allocate 3).2.data b = wflRun5.data b)) :=
  claim2_worst_fit_allocate wflRun5 3 inv_wflRun5 (by omega)

/-- Counterexample to claim C2 as stated: consuming the single free run
`(0, 5)` exactly leaves the zero-length entry `(5, 0)` in the free list; the
run is not removed. -/
theorem claim2_cex_emptied_run_kept :
    Inv wflRun5 ∧
    (wflRun5.allocate 5).1 = some 0 ∧
    (wflRun5.allocate 5).2.free_segments = [(5, 0)] ∧
    (wflRun5.allocate 5).2.free_segments ≠ [] :=
  ⟨inv_wflRun5, by decide, by decide, by decide⟩

/-- Claim C3 (amended): starting from an arbitrary initial bitmap, the
free-list invariant — runs strictly sorted by offset, pairwise disjoint,
never abutting, of positive length and within the extent, describing exactly
the zero bits — is preserved by every sequence of operations in which each
`deallocate` either lies beyond the extent (a no-op) or frees a non-empty
fully-allocated range, and no `allocate` consumes its chosen run exactly
(which would leave a zero-length entry behind); `allocate_at` is
unrestricted. -/
theorem claim3_free_list_invariant (bitmap : Nat → Bool) (ops : List AllocOp)
    (hops : opsOk (WorstFitList.new bitmap) ops) :
    Inv (applyOps (WorstFitList.new bitmap) ops) ∧
    StrictSortedByOffset (applyOps (WorstFitList.new bitmap) ops).free_segments := by
  have h := applyOps_inv (new_inv bitmap) ops hops
  refine ⟨h, List.Pairwise.imp ?_ h.sep⟩
  intro p q hpq
  omega

/-- Witness for claim C3: a one-operation disciplined history from the
all-ones bitmap. -/
theorem claim3_free_list_invariant_witness :
    Inv (applyOps (WorstFitList.new (fun _ => true)) [AllocOp.allocAt 5 3]) ∧
    StrictSortedByOffset
      (applyOps (WorstFitList.new (fun _ => true))
        [AllocOp.allocAt 5 3]).free_segments :=
  claim3_free_list_invariant (fun _ => true) [AllocOp.allocAt 5 3]
    ⟨trivial, trivial⟩

/-- Counterexample to claim C3 as stated: deallocating the same block twice
from the all-ones bitmap leaves the free list `[(0, 1), (0, 1)]`, which is
not sorted strictly increasing by offset (nor disjoint). -/
theorem claim3_cex_double_deallocate :
    (applyOps (WorstFitList.new (fun _ => true))
        [AllocOp.dealloc 0 1, AllocOp.dealloc 0 1]).free_segments
      = [(0, 1), (0, 1)] ∧
    ¬ StrictSortedByOffset
      (applyOps (WorstFitList.new (fun _ => true))
        [AllocOp.dealloc 0 1, AllocOp.dealloc 0 1]).free_segments := by
  have e : (applyOps (WorstFitList.new (fun _ => true))
      [AllocOp.dealloc 0 1, AllocOp.dealloc 0 1]).free_segments
      = [(0, 1), (0, 1)] := by
    rw [new_all_true]
    rfl
  refine ⟨e, ?_⟩
  rw [e]
  intro hsorted
  have := List.pairwise_cons.mp hsorted
  have h01 := this.1 (0, 1) (List.mem_cons_self _ _)
  simp at h01

/-- Claim C4 (amended): on the allocator whose only free run is
`(1000, 500)`, `allocate_at(100, 900)` fails; `allocate_at(100, 1000)`
succeeds, leaving `[(1100, 400)]`; `allocate_at(100, 1450)` then FAILS
(bits 1500..1549 are already set), leaving the list unchanged — not succeeds
as the original claim states; `allocate_at(50, 1200)` then succeeds splitting
the run, leaving `[(1100, 100), (1250, 250)]`. -/
theorem claim4_allocate_at_scenario :
    Inv wflScenario2 ∧
    (wflScenario2.allocate_at 100 900).1 = false ∧
    (wflScenario2.allocate_at 100 900).2.free_segments = [(1000, 500)] ∧
    ((wflScenario2.allocate_at 100 900).2.allocate_at 100 1000).1 = true ∧
    ((wflScenario2.allocate_at 100 900).2.allocate_at 100 1000).2.free_segments
      = [(1100, 400)] ∧
    (((wflScenario2.allocate_at 100 900).2.allocate_at 100 1000).2.allocate_at
        100 1450).1 = false ∧
    (((wflScenario2.allocate_at 100 900).2.allocate_at 100 1000).2.allocate_at
        100 1450).2.free_segments = [(1100, 400)] ∧
    ((((wflScenario2.allocate_at 100 900).2.allocate_at 100 1000).2.allocate_at
        100 1450).2.allocate_at 50 1200).1 = true ∧
    ((((wflScenario2.allocate_at 100 900).2.allocate_at 100 1000).2.allocate_at
        100 1450).2.allocate_at 50 1200).2.free_segments
      = [(1100, 100), (1250, 250)] :=
  ⟨inv_wflScenario2, by decide, by decide, by decide, by decide, by decide,
    by decide, by decide, by decide⟩

/-- Counterexample to claim C4 as stated: after the first two calls of the
scenario the third call `allocate_at(100, 1450)` returns `false`, not `true`
— its range `[1450, 1550)` reaches past the free run `[1100, 1500)` into set
bits, so the claimed outcome contradicts the claim's own failure rule. -/
theorem claim4_cex_third_call_false :
    (wflScenario2.allocate_at 100 900).1 = false ∧
    ((wflScenario2.allocate_at 100 900).2.allocate_at 100 1000).1 = true ∧
    ((wflScenario2.allocate_at 100 900).2.allocate_at 100 1000).2.free_segments
      = [(1100, 400)] ∧
    (((wflScenario2.allocate_at 100 900).2.allocate_at 100 1000).2.allocate_at
        100 1450).1 = false :=
  ⟨by decide, by decide, by decide, by decide⟩

/-- Claim C5 (amended): on any state satisfying the free-list invariant, for
any non-empty range within the segment extent whose bits are all set,
`deallocate(offset, size)` followed by `allocate_at(size, offset)` succeeds
and restores the original free list and bitmap exactly.  (The original
claim's unrestricted range quantification fails for `size = 0` and for
ranges beyond the extent.) -/
theorem claim5_deallocate_allocate_at_roundtrip (a : WorstFitList)
    (offset size : Nat) (hinv : Inv a) (hsz : 0 < size)
    (hext : offset + size ≤ SEGMENT_SIZE)
    (hones : ∀ b, offset ≤ b → b < offset + size → a.data b = true) :
    ((a.deallocate offset size).allocate_at size offset).1 = true ∧
    ((a.deallocate offset size).allocate_at size offset).2.free_segments
      = a.free_segments ∧
    ∀ b, ((a.deallocate offset size).allocate_at size offset).2.data b
      = a.data b := by
  have hoob : ¬ SEGMENT_SIZE < offset + size := by omega
  have hsz' : size ≠ 0 := by omega
  have hdisj := disj_of_all_set hinv hext hsz hones
  have hdeq : a.deallocate offset size
      = { data := mark a.data offset size false
          free_segments := deallocGo offset size a.free_segments } := by
    simp only [WorstFitList.deallocate, if_neg hoob]
  have hany : anyBit (mark a.data offset size false) offset size = false := by
    rw [anyBit_eq_false_iff]
    intro i h1 h2
    exact mark_mem _ _ _ _ _ h1 h2
  have hgo : allocAtGo size offset (deallocGo offset size a.free_segments)
      = some a.free_segments :=
    deallocGo_allocAtGo_restore hsz a.free_segments hinv.sep hinv.pos hdisj
  rw [hdeq]
  have haeq : WorstFitList.allocate_at
      { data := mark a.data offset size false
        free_segments := deallocGo offset size a.free_segments } size offset
      = (true,
          { data := mark (mark a.data offset size false) offset size true
            free_segments := a.free_segments }) := by
    simp only [WorstFitList.allocate_at, if_neg hsz', if_neg hoob, hany,
      Bool.false_eq_true, if_neg (by simp : ¬ False), hgo]
  rw [haeq]
  refine ⟨rfl, rfl, ?_⟩
  intro b
  show mark (mark a.data offset size false) offset size true b = a.data b
  by_cases hr : offset ≤ b ∧ b < offset + size
  · rw [mark_mem _ _ _ _ _ hr.1 hr.2]
    exact (hones b hr.1 hr.2).symm
  · rw [mark_not_mem _ _ _ _ _ hr, mark_not_mem _ _ _ _ _ hr]

/-- Witness for claim C5: the round trip on the fully allocated fixture at
range `[10, 15)`. -/
theorem claim5_deallocate_allocate_at_roundtrip_witness :
    ((wflAllOnes.deallocate 10 5).allocate_at 5 10).1 = true ∧
    ((wflAllOnes.deallocate 10 5).allocate_at 5 10).2.free_segments
      = wflAllOnes.free_segments ∧
    ∀ b, ((wflAllOnes.deallocate 10 5).allocate_at 5 10).2.data b
      = wflAllOnes.data b :=
  claim5_deallocate_allocate_at_roundtrip wflAllOnes 10 5 inv_wflAllOnes
    (by omega) (by decide) (fun b _ _ => rfl)

/-- Counterexample to claim C5 as stated: a size-0 range is vacuously
"entirely allocated", yet `deallocate(5, 0)` inserts the zero-length run
`(5, 0)` into the (previously empty) free list and `allocate_at(0, 5)`
returns early without undoing it, so the round trip does not restore the
free list. -/
theorem claim5_cex_zero_size :
    Inv wflAllOnes ∧
    (∀ b, 5 ≤ b → b < 5 + 0 → wflAllOnes.data b = true) ∧
    ((wflAllOnes.deallocate 5 0).allocate_at 0 5).1 = true ∧
    ((wflAllOnes.deallocate 5 0).allocate_at 0 5).2.free_segments = [(5, 0)] ∧
    wflAllOnes.free_segments = [] :=
  ⟨inv_wflAllOnes, fun b _ _ => rfl, by decide, by decide, rfl⟩

/-- Claim C9: `allocate_at(0, offset)` returns `true` for every offset,
including offsets at or beyond the segment extent, and leaves the allocator
state untouched: the `size == 0` early return precedes the bounds check. -/
theorem claim9_allocate_at_zero_size (a : WorstFitList) (offset : Nat) :
    a.allocate_at 0 offset = (true, a) := rfl

/-! ## Claim theorems: tree, dataset, database, handler -/

/-- Claim C1 (code bug): the tree round trip fails on the code.  On a tree
with an internal root, `insert([3], [7])` deposited as a buffered message
(the child was not cached) followed by `get([3])` returns `None` instead of
`Some [7]` — `get_with_info` returns early when the leaf has no base entry,
discarding the collected messages (mod.rs line 360); and a buffered delete
over an existing base entry makes `get` panic at the `tmp.unwrap()` of
mod.rs line 368 instead of returning `None`. -/
theorem claim1_round_trip_fails_on_buffered_messages :
    (∃ t', Tree.insert
        (Node.internal [[5]] [[], []] [Node.leaf [], Node.leaf []])
        [3] (DMsg.insertMsg [7]) [false] = .ok t' ∧
      Tree.get t' [3] = .ok none) ∧
    (∃ t', Tree.insert
        (Node.internal [[5]] [[], []] [Node.leaf [([3], [7])], Node.leaf []])
        [3] DMsg.deleteMsg [false] = .ok t' ∧
      Tree.get t' [3] = .error .PanicUnwrapNone) :=
  ⟨⟨_, rfl, rfl⟩, ⟨_, rfl, rfl⟩⟩

/-- Claim C7: inserting with an empty key is rejected with `EmptyKey` by the
very first check of `TreeBaseLayer::insert`, before any message is deposited
or any rebalancing runs (the error is returned without constructing a new
tree state), and the raw dataset routes relay the same error. -/
theorem claim7_empty_key_rejected (t : Node) (m : DMsg) (cached : List Bool)
    (ds : DatasetInner) (pref : StoragePreference) :
    Tree.insert t [] m cached = .error .EmptyKey ∧
    ds.insert_msg_with_pref [] m pref cached = .error .EmptyKey ∧
    DatasetInner.delete ds [] cached = .error .EmptyKey :=
  ⟨rfl, rfl, rfl⟩

/-- The tree's insert never produces `MessageTooLarge`: its only checks are
the empty key and the unimplemented root merge. -/
theorem tree_insert_ne_msg_too_large (t : Node) (k : Key) (m : DMsg)
    (cached : List Bool) :
    Tree.insert t k m cached ≠ Except.error Err.MessageTooLarge := by
  unfold Tree.insert
  split_ifs <;> simp

/-- Claim C10: the 512 KiB `MAX_MESSAGE_SIZE` limit is enforced only by the
dataset's `insert_with_pref` (on the data length) and `upsert_with_pref` (on
`offset + data length`); the raw message route `insert_msg_with_pref`
forwards any message verbatim to the tree with no size check and can never
yield `MessageTooLarge`. -/
theorem claim10_message_size_checks (ds : DatasetInner) (k : Key) (msg : DMsg)
    (pref : StoragePreference) (cached : List Bool) :
    MAX_MESSAGE_SIZE = 512 * 1024 ∧
    ds.insert_msg_with_pref k msg pref cached = Tree.insert ds.tree k msg cached ∧
    ds.insert_msg_with_pref k msg pref cached ≠ .error .MessageTooLarge ∧
    (∀ data : Value,
      (ds.insert_with_pref k data pref cached = .error .MessageTooLarge ↔
        MAX_MESSAGE_SIZE < data.length)) ∧
    (∀ (data : Value) (offset : Nat),
      (ds.upsert_with_pref k data offset pref cached = .error .MessageTooLarge ↔
        MAX_MESSAGE_SIZE < offset + data.length)) := by
  refine ⟨rfl, rfl, tree_insert_ne_msg_too_large ds.tree k msg cached, ?_, ?_⟩
  · intro data
    unfold DatasetInner.insert_with_pref
    split_ifs with h
    · simp [h]
    · simp only [h, iff_false]
      exact tree_insert_ne_msg_too_large ds.tree k _ cached
  · intro data offset
    unfold DatasetInner.upsert_with_pref
    split_ifs with h
    · simp [h]
    · simp only [h, iff_false]
      exact tree_insert_ne_msg_too_large ds.tree k _ cached

/-- Claim C6: `copy_on_write` returns `Removed` exactly when the dataset's
snapshot generation is absent or strictly below the caller's generation; in
that case it bumps the per-disk and per-tier free counters by `size` (other
disks and tiers untouched) and enqueues the deallocate bitmap-update message
followed by the storage-info update (with the already-bumped counter) as
delayed messages; otherwise it returns `Preserved`, appends a dead-list
entry `{birth: generation, size}` keyed by
`(dataset_id, current_generation, offset)` and leaves the counters alone. -/
theorem claim6_copy_on_write (h : Handler) (offset : DiskOffset)
    (size generation dataset_id : Nat) :
    ((h.copy_on_write offset size generation dataset_id).1 = .Removed ↔
      (h.last_snapshot_generation dataset_id = none ∨
        ∃ g, h.last_snapshot_generation dataset_id = some g ∧ g < generation)) ∧
    ((h.last_snapshot_generation dataset_id = none ∨
        ∃ g, h.last_snapshot_generation dataset_id = some g ∧ g < generation) →
      (h.copy_on_write offset size generation dataset_id).2.delayed_messages
          = h.delayed_messages ++
            [(RootKey.segmentKey (SegmentId.get offset),
                RootMsg.upsertBits (SegmentId.get_block_offset offset) size false),
             (RootKey.spaceAccountingKey offset.class_disk_id,
                RootMsg.upsertInfo
                  { free := (h.free_space offset.class_disk_id).free + size
                    total := (h.free_space offset.class_disk_id).total })] ∧
        ((h.copy_on_write offset size generation dataset_id).2.free_space
            offset.class_disk_id).free
          = (h.free_space offset.class_disk_id).free + size ∧
        (∀ d, d ≠ offset.class_disk_id →
          (h.copy_on_write offset size generation dataset_id).2.free_space d
            = h.free_space d) ∧
        ((h.copy_on_write offset size generation dataset_id).2.free_space_tier
            offset.storage_class).free
          = (h.free_space_tier offset.storage_class).free + size ∧
        (∀ c, c ≠ offset.storage_class →
          (h.copy_on_write offset size generation dataset_id).2.free_space_tier c
            = h.free_space_tier c) ∧
        (h.copy_on_write offset size generation dataset_id).2.last_snapshot_generation
          = h.last_snapshot_generation ∧
        (h.copy_on_write offset size generation dataset_id).2.current_generation
          = h.current_generation) ∧
    ((∃ g, h.last_snapshot_generation dataset_id = some g ∧ generation ≤ g) →
      (h.copy_on_write offset size generation dataset_id).1 = .Preserved ∧
      (h.copy_on_write offset size generation dataset_id).2.delayed_messages
        = h.delayed_messages ++
          [(RootKey.deadlistKey dataset_id h.current_generation offset,
              RootMsg.insertDeadList generation size)] ∧
      (h.copy_on_write offset size generation dataset_id).2.free_space
        = h.free_space ∧
      (h.copy_on_write offset size generation dataset_id).2.free_space_tier
        = h.free_space_tier) := by
  by_cases hc : (match h.last_snapshot_generation dataset_id with
      | none => true
      | some g => decide (g < generation)) = true
  · have hprop : h.last_snapshot_generation dataset_id = none ∨
        ∃ g, h.last_snapshot_generation dataset_id = some g ∧ g < generation := by
      rcases hl : h.last_snapshot_generation dataset_id with _ | g
      · exact Or.inl rfl
      · rw [hl] at hc
        simp only [decide_eq_true_eq] at hc
        exact Or.inr ⟨g, rfl, hc⟩
    refine ⟨⟨fun _ => hprop, fun _ => ?_⟩, fun _ => ?_, ?_⟩
    · simp only [Handler.copy_on_write, if_pos hc]
    · simp only [Handler.copy_on_write, if_pos hc,
        update_allocation_bitmap_msg, update_storage_info, Action.as_bool]
      refine ⟨by simp, by simp, ?_, by simp, ?_, by trivial, by trivial⟩
      · intro d hd
        simp [if_neg hd]
      · intro c hcne
        simp [if_neg hcne]
    · rintro ⟨g, hg, hge⟩
      exfalso
      rw [hg] at hc
      simp only [decide_eq_true_eq] at hc
      omega
  · have hprop : ∃ g, h.last_snapshot_generation dataset_id = some g ∧
        generation ≤ g := by
      rcases hl : h.last_snapshot_generation dataset_id with _ | g
      · rw [hl] at hc
        simp at hc
      · rw [hl] at hc
        simp only [decide_eq_true_eq] at hc
        exact ⟨g, rfl, by omega⟩
    refine ⟨⟨?_, ?_⟩, ?_, fun _ => ?_⟩
    · intro hres
      exfalso
      simp only [Handler.copy_on_write, if_neg hc] at hres
      cases hres
    · intro hd
      exfalso
      obtain ⟨g, hg, hge⟩ := hprop
      rcases hd with hd | ⟨g', hg', hlt⟩
      · rw [hg] at hd; cases hd
      · rw [hg] at hg'
        injection hg' with hg'
        omega
    · intro hd
      exfalso
      obtain ⟨g, hg, hge⟩ := hprop
      rcases hd with hd | ⟨g', hg', hlt⟩
      · rw [hg] at hd; cases hd
      · rw [hg] at hg'
        injection hg' with hg'
        omega
    · simp only [Handler.copy_on_write, if_neg hc]
      refine ⟨by trivial, by trivial, by trivial, by trivial⟩

/-- Witness for claim C6: on the fixture with no snapshots the event is
`Removed`, and on the fixture whose dataset 9 holds a snapshot at
generation 5 a free of generation 3 is `Preserved`. -/
theorem claim6_copy_on_write_witness :
    (Handler.copy_on_write h0 off0 5 3 9).1 = .Removed ∧
    (Handler.copy_on_write h1 off0 5 3 9).1 = .Preserved :=
  ⟨(claim6_copy_on_write h0 off0 5 3 9).1.mpr (Or.inl rfl),
    ((claim6_copy_on_write h1 off0 5 3 9).2.2 ⟨5, rfl, by omega⟩).1⟩

/-- Claim C8: opening a dataset whose id is already in `open_datasets` fails
with `InUse` (before any state is touched — the error carries no new state);
`close_dataset` removes the id from `open_datasets` and drops its
snapshot-generation entry, after which reopening the same name succeeds and
marks the id open again. -/
theorem claim8_dataset_exclusivity (db : Database) (name : List Nat) (id : Nat)
    (d : DatasetData) (hname : db.names name = some id)
    (hdata : db.ds_data id = some d) (hopen : db.open_datasets id = true) :
    db.open_dataset name = .error .InUse ∧
    (db.close_dataset id).open_datasets id = false ∧
    (db.close_dataset id).last_snapshot_generation id = none ∧
    ∃ db', (db.close_dataset id).open_dataset name = .ok db' ∧
      db'.open_datasets id = true := by
  have hclopen : (db.close_dataset id).open_datasets id = false := by
    simp [Database.close_dataset]
  refine ⟨?_, hclopen, by simp [Database.close_dataset], ?_⟩
  · simp only [Database.open_dataset, hname,
      Database.open_dataset_with_id_and_name, hdata, hopen, if_pos]
  · have hname' : (db.close_dataset id).names name = some id := hname
    have hdata' : (db.close_dataset id).ds_data id = some d := hdata
    refine ⟨{ db.close_dataset id with
        open_datasets := fun j => if j = id then true
          else (db.close_dataset id).open_datasets j,
        last_snapshot_generation := fun j => if j = id then
            match d.previous_snapshot with
            | some ss => some ss
            | none => (db.close_dataset id).last_snapshot_generation j
          else (db.close_dataset id).last_snapshot_generation j }, ?_, ?_⟩
    · simp only [Database.open_dataset, hname',
        Database.open_dataset_with_id_and_name, hdata', hclopen,
        Bool.false_eq_true, if_neg (by simp : ¬ False)]
    · simp

/-- Witness for claim C8: the database fixture with dataset "foo" open. -/
theorem claim8_dataset_exclusivity_witness :
    db0.open_dataset [102, 111, 111] = .error .InUse ∧
    ∃ db', (db0.close_dataset 1).open_dataset [102, 111, 111] = .ok db' ∧
      db'.open_datasets 1 = true := by
  obtain ⟨ha, -, -, hb⟩ := claim8_dataset_exclusivity db0 [102, 111, 111] 1
    { ptr := 42, previous_snapshot := none } rfl rfl rfl
  exact ⟨ha, hb⟩

end Betree
